import Mathlib

set_option maxHeartbeats 1600000

namespace Kanban

/-!
Verification of the in-process kanban `Database` component of `backend/app.py`.

The Python store keeps three dicts (`_tasks_db : id → Task`,
`_columns : column id → list of Task`, `_categories : id → Category`) plus a
dirty flag.  The task objects held by `_columns` are the *same objects* as the
ones held by `_tasks_db`, and several operations rely on that aliasing
(`update_task` mutates a task in place and the column entry changes with it;
`move`/`delete` locate a task inside columns by Python `==`, which for
pydantic models is field-wise value equality).  To embed this faithfully we
model the Python object heap explicitly: `Database.heap` is a list of task
records, the task map binds ids to heap references (indices), and columns are
ordered lists of heap references.  Python dicts are modelled as ordered
association lists (Python dicts preserve insertion order); `del` on a missing
key, i.e. `KeyError`, is modelled by an explicit error value.
-/

/-- A task record, mirroring the pydantic `Task` model of `backend/app.py`. -/
structure Task where
  id : String
  title : String
  description : Option String
  category_id : Option String
deriving DecidableEq

instance : Inhabited Task := ⟨⟨"", "", none, none⟩⟩

/-- A category record, mirroring the pydantic `Category` model. -/
structure Category where
  id : String
  name : String
  color : String
deriving DecidableEq

/-- A task record as it appears inside a JSON snapshot.  `category_id = none`
models the `category_id` key being absent from the JSON object (older snapshot
formats), `some c` models a present key with value `c` (itself optional). -/
structure TaskData where
  id : String
  title : String
  description : Option String
  category_id : Option (Option String)
deriving DecidableEq

/-- A parsed snapshot.  Each field is `none` when the corresponding key is
absent from the JSON object; the code reads the keys with `data.get(k, {})`. -/
structure SnapshotData where
  tasks : Option (List (String × TaskData))
  columns : Option (List (String × List String))
  categories : Option (List (String × Category))
deriving DecidableEq

/-- The keyword arguments the API layer passes to `Database.update_task`
(`TaskUpdate.model_dump(exclude_unset=True)`): each field is applied only when
it was explicitly supplied. -/
structure TaskPatch where
  title : Option String
  description : Option (Option String)
  category_id : Option (Option String)
deriving DecidableEq

/-- `setattr`-style application of the supplied fields of a patch. -/
def applyPatch (p : TaskPatch) (t : Task) : Task :=
  { t with title := p.title.getD t.title,
           description := p.description.getD t.description,
           category_id := p.category_id.getD t.category_id }

/-- The `KeyError` the store raises for a missing task/category id; the API
layer maps it to a 404 "not found" response. -/
inductive DBError where
  | notFound : String → DBError
deriving DecidableEq

/-! ### Ordered association lists modelling Python dicts -/

/-- `m[k]` lookup: first binding of `k`. -/
def alookup {α : Type} : List (String × α) → String → Option α
  | [], _ => none
  | p :: rest, k => if p.1 = k then some p.2 else alookup rest k

/-- `m[k] = v` dict assignment: replace the binding in place if the key is
present, else append a new binding (Python dicts preserve insertion order). -/
def aset {α : Type} : List (String × α) → String → α → List (String × α)
  | [], k, v => [(k, v)]
  | p :: rest, k, v => if p.1 = k then (k, v) :: rest else p :: aset rest k v

/-- `del m[k]`: drop the binding of `k` (a Python dict holds at most one). -/
def aerase {α : Type} : List (String × α) → String → List (String × α)
  | [], _ => []
  | p :: rest, k => if p.1 = k then aerase rest k else p :: aerase rest k

/-- In-place mutation of the value bound to `k` (e.g. `m[k].append(x)`). -/
def aupdate {α : Type} : List (String × α) → String → (α → α) →
    List (String × α)
  | [], _, _ => []
  | p :: rest, k, f =>
    if p.1 = k then (p.1, f p.2) :: aupdate rest k f
    else p :: aupdate rest k f

/-! ### The task heap -/

/-- Dereference a heap reference (out-of-range never happens in states the
store can be in; the default task makes the function total). -/
def hget (h : List Task) (r : Nat) : Task :=
  h.getD r default

/-- Python `list.insert(i, x)` semantics: a negative index counts from the
end and is clamped at `0`; an index past the end appends. -/
def pyInsert {α : Type} (i : Int) (x : α) (xs : List α) : List α :=
  let j : Nat := if i < 0 then (i + xs.length).toNat else min i.toNat xs.length
  xs.take j ++ x :: xs.drop j

/-- `list.remove(t)`: drop the first element whose value equals `t`
(pydantic `==` is field-wise equality). -/
def removeFirstEq (h : List Task) (t : Task) : List Nat → List Nat
  | [] => []
  | r :: rs => if hget h r = t then rs else r :: removeFirstEq h t rs

/-- The column scan of `Database.move` / `Database.delete`:
`for task_list in self._columns.values(): if task in task_list:
task_list.remove(task); break` — remove the first value-equal entry from the
first column that has one, leaving later columns untouched. -/
def removeFirstContaining (h : List Task) (t : Task) :
    List (String × List Nat) → List (String × List Nat)
  | [] => []
  | (c, rs) :: rest =>
    if rs.any fun r => decide (hget h r = t) then
      (c, removeFirstEq h t rs) :: rest
    else
      (c, rs) :: removeFirstContaining h t rest

/-- The deletion loop of `Database.empty_column`:
`for task in self._columns[column_id]: del self._tasks_db[task.id]`.
A missing id raises `KeyError`, leaving the deletions made so far in place. -/
def delAll (h : List Task) : List Nat → List (String × Nat) →
    Option DBError × List (String × Nat)
  | [], m => (none, m)
  | r :: rs, m =>
    match alookup m (hget h r).id with
    | none => (some (DBError.notFound (hget h r).id), m)
    | some _ => delAll h rs (aerase m (hget h r).id)

/-- The loop of `Database.delete_category`:
`for task in self._tasks_db.values(): if task.category_id == category_id:
task.category_id = None` — an in-place mutation of each referencing task. -/
def clearCategory (cid : String) : List (String × Nat) → List Task → List Task
  | [], h => h
  | (_, r) :: rest, h =>
    clearCategory cid rest
      (if (hget h r).category_id = some cid then
        h.set r { hget h r with category_id := none }
      else h)

/-- The per-task mutation performed by the `delete_category` loop body. -/
def clearCat (cid : String) (t : Task) : Task :=
  if t.category_id = some cid then { t with category_id := none } else t

/-- `Task(**task_data)` after the backward-compatibility default
`if "category_id" not in task_data: task_data["category_id"] = None`. -/
def mkTaskFromData (td : TaskData) : Task :=
  { id := td.id, title := td.title, description := td.description,
    category_id := td.category_id.getD none }

/-- The task-restoring loop of `Database.import_from_json`: each record is
turned into a fresh task object (a fresh heap reference) and bound to its
snapshot key. -/
def importTasks : List (String × TaskData) → List Task → List (String × Nat) →
    List Task × List (String × Nat)
  | [], h, m => (h, m)
  | (k, td) :: rest, h, m =>
    importTasks rest (h ++ [mkTaskFromData td]) (aset m k h.length)

/-- The column-restoring loop of `Database.import_from_json`: each column is
reset to `[]` and then the listed task ids are looked up in the rebuilt task
map; ids with no task record are silently skipped. -/
def importColumns (m : List (String × Nat)) :
    List (String × List String) → List (String × List Nat) →
    List (String × List Nat)
  | [], acc => acc
  | (c, tids) :: rest, acc =>
    importColumns m rest (aset acc c (tids.filterMap fun tid => alookup m tid))

/-- The category-restoring loop of `Database.import_from_json`. -/
def importCategories : List (String × Category) → List (String × Category) →
    List (String × Category)
  | [], acc => acc
  | (k, cat) :: rest, acc => importCategories rest (aset acc k cat)

/-! ### The store -/

/-- The `Database` dataclass: the three dicts plus the dirty flag, with the
Python object heap for task records made explicit (see the file comment). -/
structure Database where
  heap : List Task
  tasks_db : List (String × Nat)
  columns : List (String × List Nat)
  categories : List (String × Category)
  has_changes : Bool
deriving DecidableEq

/-- A store holding no tasks, columns or categories (the state right after
the three `clear()` calls; also the "empty store" of the test scenarios). -/
def emptyDB : Database :=
  { heap := [], tasks_db := [], columns := [], categories := [],
    has_changes := false }

/-- `if column_id not in self._columns: self._columns[column_id] = []` —
the create-if-absent step shared by `add` and `move`. -/
def ensureCol (cols : List (String × List Nat)) (c : String) :
    List (String × List Nat) :=
  if (alookup cols c).isNone then aset cols c [] else cols

/-- `Database.add`: bind the task in `_tasks_db`, create the column if absent,
append the (shared) task object to it, mark dirty. -/
def Database.add (db : Database) (t : Task) (column_id : String) : Database :=
  let r := db.heap.length
  { db with
      heap := db.heap ++ [t],
      tasks_db := aset db.tasks_db t.id r,
      columns := aupdate (ensureCol db.columns column_id) column_id
        fun rs => rs ++ [r],
      has_changes := true }

/-- `Database.get`: `self._tasks_db[id]`, `KeyError` if absent. -/
def Database.get (db : Database) (id : String) : Except DBError Task :=
  match alookup db.tasks_db id with
  | none => Except.error (DBError.notFound id)
  | some r => Except.ok (hget db.heap r)

/-- `Database.move`: look the task up (`KeyError` if absent, before any
mutation), remove it from the first column containing it, create the target
column if absent, insert at the requested index with `list.insert` semantics,
mark dirty. -/
def Database.move (db : Database) (id to_column_id : String) (to_index : Int) :
    Option DBError × Database :=
  match alookup db.tasks_db id with
  | none => (some (DBError.notFound id), db)
  | some r =>
    let t := hget db.heap r
    let cols := removeFirstContaining db.heap t db.columns
    (none, { db with
               columns := aupdate (ensureCol cols to_column_id) to_column_id
                 (pyInsert to_index r),
               has_changes := true })

/-- `Database.delete`: look the task up (`KeyError` if absent, before any
mutation), drop its binding, remove it from the first column containing it,
mark dirty. -/
def Database.delete (db : Database) (task_id : String) :
    Option DBError × Database :=
  match alookup db.tasks_db task_id with
  | none => (some (DBError.notFound task_id), db)
  | some r =>
    let t := hget db.heap r
    (none, { db with
               tasks_db := aerase db.tasks_db task_id,
               columns := removeFirstContaining db.heap t db.columns,
               has_changes := true })

/-- `Database.empty_column`: a no-op when the column does not exist; otherwise
delete every task of the column from `_tasks_db` (a `KeyError` aborts the
loop, keeping the deletions made so far), clear the column, mark dirty. -/
def Database.empty_column (db : Database) (column_id : String) :
    Option DBError × Database :=
  match alookup db.columns column_id with
  | none => (none, db)
  | some rs =>
    match delAll db.heap rs db.tasks_db with
    | (some e, m) => (some e, { db with tasks_db := m })
    | (none, m) =>
      (none, { db with
                 tasks_db := m,
                 columns := aset db.columns column_id [],
                 has_changes := true })

/-- `Database.update_task`: look the task up (`KeyError` if absent), apply the
supplied fields to the object in place (column entries alias it), mark dirty. -/
def Database.update_task (db : Database) (task_id : String) (p : TaskPatch) :
    Option DBError × Database :=
  match alookup db.tasks_db task_id with
  | none => (some (DBError.notFound task_id), db)
  | some r =>
    (none, { db with
               heap := db.heap.set r (applyPatch p (hget db.heap r)),
               has_changes := true })

/-- `Database.delete_category`: `KeyError` if the category is absent;
otherwise null the category reference of every referencing task in place,
drop the category, mark dirty. -/
def Database.delete_category (db : Database) (category_id : String) :
    Option DBError × Database :=
  if (alookup db.categories category_id).isNone then
    (some (DBError.notFound category_id), db)
  else
    (none, { db with
               heap := clearCategory category_id db.tasks_db db.heap,
               categories := aerase db.categories category_id,
               has_changes := true })

/-- The projection of a task object back to its JSON form (`model_dump`):
every field, `category_id` included, is present in the output. -/
def taskToData (t : Task) : TaskData :=
  { id := t.id, title := t.title, description := t.description,
    category_id := some t.category_id }

/-- The `"tasks"` object of the export: full task records by id
(`task.model_dump()` for each binding of `_tasks_db`). -/
def exportTasks (db : Database) : List (String × TaskData) :=
  db.tasks_db.map fun p => (p.1, taskToData (hget db.heap p.2))

/-- The `"columns"` object of the export: column id → ordered list of the
ids of its task objects. -/
def exportCols (db : Database) : List (String × List String) :=
  db.columns.map fun p => (p.1, p.2.map fun r => (hget db.heap r).id)

/-- `Database.export_to_json`: full task records by id, column id → ordered
list of task ids, full category records by id.  Pure projection. -/
def Database.export_to_json (db : Database) : SnapshotData :=
  { tasks := some (exportTasks db),
    columns := some (exportCols db),
    categories := some db.categories }

/-- `Database.import_from_json`: clear all three dicts, rebuild the tasks
(defaulting a missing `category_id` to `None`), rebuild the columns by id
lookup (silently skipping unknown ids), rebuild the categories (empty when the
key is absent).  The dirty flag is not touched. -/
def Database.import_from_json (db : Database) (data : SnapshotData) : Database :=
  let tm := importTasks (data.tasks.getD []) [] []
  { heap := tm.1,
    tasks_db := tm.2,
    columns := importColumns tm.2 (data.columns.getD []) [],
    categories := importCategories (data.categories.getD []) [],
    has_changes := db.has_changes }

/-- Outcome of `Database.save_to_file`: the returned boolean, the store
afterwards, and the snapshot written to disk (`none` when nothing was
written).  The wall-clock `backup_timestamp` attached to the written JSON is
not modelled. -/
structure SaveResult where
  saved : Bool
  state : Database
  written : Option SnapshotData
deriving DecidableEq

/-- `Database.save_to_file`: returns `False` without writing when the dirty
flag is clear; otherwise builds the export and writes it — `write_ok` says
whether the file write succeeds.  On success the dirty flag is cleared and
`True` returned; any write failure is caught and reported as `False`, leaving
the store untouched. -/
def Database.save_to_file (db : Database) (write_ok : Bool) : SaveResult :=
  if !db.has_changes then ⟨false, db, none⟩
  else if write_ok then
    ⟨true, { db with has_changes := false }, some db.export_to_json⟩
  else ⟨false, db, none⟩

/-! ### Operation sequences -/

/-- The store operations quantified over by the placement invariant. -/
inductive Op where
  | addTask : Task → String → Op
  | updateTask : String → TaskPatch → Op
  | deleteTask : String → Op
  | moveTask : String → String → Int → Op
  | emptyColumn : String → Op
  | deleteCategory : String → Op
  | importSnapshot : SnapshotData → Op
deriving DecidableEq

/-- Run one operation; for fallible operations the store is whatever the
object holds after the call (unchanged when the `KeyError` precedes any
mutation, partially mutated for a mid-loop `KeyError` in `empty_column`). -/
def Database.exec (db : Database) : Op → Database
  | Op.addTask t col => db.add t col
  | Op.updateTask id p => (db.update_task id p).2
  | Op.deleteTask id => (db.delete id).2
  | Op.moveTask id col idx => (db.move id col idx).2
  | Op.emptyColumn col => (db.empty_column col).2
  | Op.deleteCategory cid => (db.delete_category cid).2
  | Op.importSnapshot data => db.import_from_json data

/-- Run a sequence of operations. -/
def Database.execList (db : Database) : List Op → Database
  | [] => db
  | op :: ops => (db.exec op).execList ops

/-- All heap references held by columns, in column order. -/
def allColRefs (cols : List (String × List Nat)) : List Nat :=
  cols.flatMap Prod.snd

/-- A snapshot a caller may legally import: unique keys, each task record's
`id` field matching its key, and every task key listed exactly once across
the columns (so the rebuilt store has no orphaned and no duplicated task). -/
def SnapWF (data : SnapshotData) : Prop :=
  ((data.tasks.getD []).map Prod.fst).Nodup ∧
  ((data.columns.getD []).map Prod.fst).Nodup ∧
  (∀ p ∈ data.tasks.getD [], (p.2).id = p.1) ∧
  ((data.columns.getD []).flatMap Prod.snd).Perm ((data.tasks.getD []).map Prod.fst)

/-- The contract under which an operation is issued: `add` is called with a
fresh id (the API layer generates a fresh uuid4), and imported snapshots are
well-formed; every other operation is unrestricted. -/
def Legal (db : Database) : Op → Prop
  | Op.addTask t _ => alookup db.tasks_db t.id = none
  | Op.importSnapshot data => SnapWF data
  | _ => True

/-- Stores reachable from the empty store by legal operations. -/
inductive Reachable : Database → Prop where
  | empty : Reachable emptyDB
  | step {db : Database} {op : Op} : Reachable db → Legal db op →
      Reachable (db.exec op)

/-! ### Observations -/

/-- The task record currently bound to an id, if any. -/
def taskAt (db : Database) (id : String) : Option Task :=
  (alookup db.tasks_db id).map (hget db.heap)

/-- The ordered list of task ids of a column, if the column exists. -/
def colList (db : Database) (c : String) : Option (List String) :=
  (alookup db.columns c).map (List.map fun r => (hget db.heap r).id)

/-- The ordered list of task records of a column, if the column exists. -/
def colTasks (db : Database) (c : String) : Option (List Task) :=
  (alookup db.columns c).map (List.map (hget db.heap))

/-- How many times a task id occurs across all column sequences. -/
def countIdInCols (db : Database) (id : String) : Nat :=
  (allColRefs db.columns).countP fun r => decide ((hget db.heap r).id = id)

/-- Well-formedness of a store: unique keys in the task and column dicts,
every task binding pointing inside the heap at a record carrying its id, and
the multiset of column entries coinciding with the task-map bindings. -/
structure WF (db : Database) : Prop where
  keysNodup : (db.tasks_db.map Prod.fst).Nodup
  colKeysNodup : (db.columns.map Prod.fst).Nodup
  bounds : ∀ p ∈ db.tasks_db, p.2 < db.heap.length
  idConsistent : ∀ p ∈ db.tasks_db, (hget db.heap p.2).id = p.1
  refsPerm : (allColRefs db.columns).Perm (db.tasks_db.map Prod.snd)

/-! ### Association list lemmas -/

theorem alookup_mem {α : Type} {m : List (String × α)} {k : String} {v : α}
    (h : alookup m k = some v) : (k, v) ∈ m := by
  induction m with
  | nil => simp [alookup] at h
  | cons p rest ih =>
    obtain ⟨a, b⟩ := p
    by_cases ha : a = k
    · subst ha
      simp [alookup] at h
      simp [h]
    · simp [alookup, ha] at h
      exact List.mem_cons_of_mem _ (ih h)

theorem alookup_isSome_iff {α : Type} {m : List (String × α)} {k : String} :
    (alookup m k).isSome ↔ k ∈ m.map Prod.fst := by
  induction m with
  | nil => simp [alookup]
  | cons p rest ih =>
    obtain ⟨a, b⟩ := p
    by_cases ha : a = k
    · subst ha
      simp [alookup]
    · simp [alookup, ha, ih, Ne.symm ha]

theorem alookup_eq_none_iff {α : Type} {m : List (String × α)} {k : String} :
    alookup m k = none ↔ k ∉ m.map Prod.fst := by
  rw [← alookup_isSome_iff]
  cases alookup m k <;> simp

theorem alookup_of_mem_nodup {α : Type} {m : List (String × α)} {k : String}
    {v : α} (hnd : (m.map Prod.fst).Nodup) (hm : (k, v) ∈ m) :
    alookup m k = some v := by
  induction m with
  | nil => simp at hm
  | cons p rest ih =>
    obtain ⟨a, b⟩ := p
    simp only [List.map_cons, List.nodup_cons] at hnd
    rcases List.mem_cons.mp hm with h | h
    · obtain ⟨h1, h2⟩ := Prod.mk.injEq .. ▸ h
      simp_all [alookup]
    · have ha : a ≠ k := by
        intro he
        subst he
        exact hnd.1 (List.mem_map.mpr ⟨(a, v), h, rfl⟩)
      simp [alookup, ha]
      exact ih hnd.2 h

theorem alookup_aset_self {α : Type} (m : List (String × α)) (k : String)
    (v : α) : alookup (aset m k v) k = some v := by
  induction m with
  | nil => simp [aset, alookup]
  | cons p rest ih =>
    obtain ⟨a, b⟩ := p
    by_cases ha : a = k
    · simp [aset, ha, alookup]
    · simp [aset, ha, alookup, ih]

theorem alookup_aset_ne {α : Type} (m : List (String × α)) {k q : String}
    (v : α) (h : q ≠ k) : alookup (aset m k v) q = alookup m q := by
  induction m with
  | nil => simp [aset, alookup, Ne.symm h]
  | cons p rest ih =>
    obtain ⟨a, b⟩ := p
    by_cases ha : a = k
    · subst ha
      simp [aset, alookup, Ne.symm h]
    · by_cases hq : a = q
      · subst hq
        simp [aset, ha, alookup]
      · simp [aset, ha, alookup, hq, ih]

theorem aset_eq_append {α : Type} {m : List (String × α)} {k : String}
    (v : α) (h : alookup m k = none) : aset m k v = m ++ [(k, v)] := by
  induction m with
  | nil => simp [aset]
  | cons p rest ih =>
    obtain ⟨a, b⟩ := p
    by_cases ha : a = k
    · simp [alookup, ha] at h
    · simp [alookup, ha] at h
      simp [aset, ha, ih h]

theorem aset_map_fst_of_isSome {α : Type} {m : List (String × α)}
    {k : String} (v : α) (h : (alookup m k).isSome) :
    (aset m k v).map Prod.fst = m.map Prod.fst := by
  induction m with
  | nil => simp [alookup] at h
  | cons p rest ih =>
    obtain ⟨a, b⟩ := p
    by_cases ha : a = k
    · simp [aset, ha]
    · simp [alookup, ha] at h
      simp [aset, ha, ih h]

theorem alookup_aerase_self {α : Type} (m : List (String × α)) (k : String) :
    alookup (aerase m k) k = none := by
  induction m with
  | nil => simp [aerase, alookup]
  | cons p rest ih =>
    obtain ⟨a, b⟩ := p
    by_cases ha : a = k
    · simp [aerase, ha, ih]
    · simp [aerase, ha, alookup, ih]

theorem alookup_aerase_ne {α : Type} (m : List (String × α)) {k q : String}
    (h : q ≠ k) : alookup (aerase m k) q = alookup m q := by
  induction m with
  | nil => simp [aerase]
  | cons p rest ih =>
    obtain ⟨a, b⟩ := p
    by_cases ha : a = k
    · subst ha
      simp [aerase, alookup, Ne.symm h, ih]
    · by_cases hq : a = q
      · subst hq
        simp [aerase, ha, alookup]
      · simp [aerase, ha, alookup, hq, ih]

theorem aerase_sublist {α : Type} (m : List (String × α)) (k : String) :
    (aerase m k).Sublist m := by
  induction m with
  | nil => simp [aerase]
  | cons p rest ih =>
    by_cases ha : p.1 = k
    · simp only [aerase, ha, if_pos]
      exact ih.cons p
    · simp only [aerase, ha, if_neg, not_false_iff]
      exact ih.cons₂ p

theorem mem_of_mem_aerase {α : Type} {m : List (String × α)} {k : String}
    {p : String × α} (h : p ∈ aerase m k) : p ∈ m :=
  (aerase_sublist m k).mem h

theorem aerase_map_fst_sublist {α : Type} (m : List (String × α)) (k : String) :
    ((aerase m k).map Prod.fst).Sublist (m.map Prod.fst) :=
  (aerase_sublist m k).map Prod.fst

theorem aupdate_map_fst {α : Type} (m : List (String × α)) (k : String)
    (f : α → α) : (aupdate m k f).map Prod.fst = m.map Prod.fst := by
  induction m with
  | nil => simp [aupdate]
  | cons p rest ih =>
    obtain ⟨a, b⟩ := p
    by_cases ha : a = k
    · simpa [aupdate, ha] using ih
    · simpa [aupdate, ha] using ih

theorem alookup_aupdate_self {α : Type} (m : List (String × α)) (k : String)
    (f : α → α) : alookup (aupdate m k f) k = (alookup m k).map f := by
  induction m with
  | nil => simp [aupdate, alookup]
  | cons p rest ih =>
    obtain ⟨a, b⟩ := p
    by_cases ha : a = k
    · simp [aupdate, ha, alookup]
    · simp [aupdate, ha, alookup, ih]

theorem alookup_aupdate_ne {α : Type} (m : List (String × α)) {k q : String}
    (f : α → α) (h : q ≠ k) :
    alookup (aupdate m k f) q = alookup m q := by
  induction m with
  | nil => simp [aupdate, alookup]
  | cons p rest ih =>
    obtain ⟨a, b⟩ := p
    by_cases ha : a = k
    · subst ha
      simp [aupdate, alookup, Ne.symm h, ih]
    · by_cases hq : a = q
      · subst hq
        simp [aupdate, ha, alookup]
      · simp [aupdate, ha, alookup, hq, ih]

theorem alookup_map_values {α β : Type} (m : List (String × α))
    (g : α → β) (k : String) :
    alookup (m.map fun p => (p.1, g p.2)) k = (alookup m k).map g := by
  induction m with
  | nil => simp [alookup]
  | cons p rest ih =>
    by_cases hk : p.1 = k
    · simp [alookup, hk]
    · simp [alookup, hk, ih]

theorem alookup_append_left {α : Type} {m : List (String × α)} {k : String}
    {v : α} (m₂ : List (String × α)) (h : alookup m k = some v) :
    alookup (m ++ m₂) k = some v := by
  induction m with
  | nil => simp [alookup] at h
  | cons p rest ih =>
    by_cases hk : p.1 = k
    · simp [alookup, hk] at h ⊢
      exact h
    · simp [alookup, hk] at h ⊢
      exact ih h

theorem alookup_append_right {α : Type} {m : List (String × α)} {k : String}
    (m₂ : List (String × α)) (h : alookup m k = none) :
    alookup (m ++ m₂) k = alookup m₂ k := by
  induction m with
  | nil => simp
  | cons p rest ih =>
    by_cases hk : p.1 = k
    · simp [alookup, hk] at h
    · simp [alookup, hk] at h ⊢
      exact ih h

/-! ### Heap lemmas -/

theorem hget_append_lt {h₁ : List Task} (h₂ : List Task) {r : Nat}
    (hr : r < h₁.length) : hget (h₁ ++ h₂) r = hget h₁ r := by
  simp [hget, List.getD, List.getElem?_append_left hr]

theorem hget_append_length (h₁ : List Task) (t : Task) :
    hget (h₁ ++ [t]) h₁.length = t := by
  simp [hget, List.getD, List.getElem?_append_right (le_refl h₁.length)]

theorem hget_set_ne (h : List Task) {r q : Nat} (a : Task) (hne : q ≠ r) :
    hget (h.set r a) q = hget h q := by
  simp [hget, List.getD, List.getElem?_set_ne (Ne.symm hne)]

theorem hget_set_self (h : List Task) (r : Nat) (a : Task) :
    hget (h.set r a) r = if r < h.length then a else hget h r := by
  by_cases hr : r < h.length
  · simp [hget, List.getD, List.getElem?_set_self, hr]
  · simp [hget, List.getD, List.set_eq_of_length_le (le_of_not_lt hr), hr]

theorem set_hget_self (h : List Task) (r : Nat) :
    h.set r (hget h r) = h := by
  induction h generalizing r with
  | nil => simp
  | cons x t ih =>
    cases r with
    | zero => simp [hget, List.getD]
    | succ n =>
      simp only [List.set_cons_succ, List.cons.injEq, true_and]
      simpa [hget, List.getD] using ih n

/-! ### pyInsert lemmas -/

theorem pyInsert_perm {α : Type} (i : Int) (x : α) (xs : List α) :
    (pyInsert i x xs).Perm (x :: xs) := by
  unfold pyInsert
  calc (xs.take _ ++ x :: xs.drop _).Perm
        (x :: (xs.take _ ++ xs.drop _)) := List.perm_middle
    _ = x :: xs := by rw [List.take_append_drop]

theorem pyInsert_append_of_ge {α : Type} {i : Int} (x : α) {xs : List α}
    (h : (xs.length : Int) ≤ i) : pyInsert i x xs = xs ++ [x] := by
  have h0 : ¬ i < 0 := by
    intro hc
    have := lt_of_le_of_lt h hc
    omega
  have hlen : xs.length ≤ i.toNat := by omega
  simp [pyInsert, h0, Nat.min_eq_right hlen, List.take_of_length_le hlen,
    List.drop_of_length_le hlen]

/-! ### Column-reference lemmas -/

theorem allColRefs_cons (c : String) (rs : List Nat)
    (rest : List (String × List Nat)) :
    allColRefs ((c, rs) :: rest) = rs ++ allColRefs rest := by
  simp [allColRefs]

theorem removeFirstEq_eq_erase {h : List Task} {t : Task} {r : Nat}
    {rs : List Nat} (hiff : ∀ q ∈ rs, (hget h q = t ↔ q = r)) :
    removeFirstEq h t rs = rs.erase r := by
  induction rs with
  | nil => rfl
  | cons q tl ih =>
    by_cases hq : hget h q = t
    · have : q = r := (hiff q (List.mem_cons_self q tl)).mp hq
      subst this
      simp [removeFirstEq, hq, List.erase_cons_head]
    · have hqr : q ≠ r := fun he => hq ((hiff q (List.mem_cons_self q tl)).mpr he)
      rw [List.erase_cons_tail (by simp [hqr])]
      simp only [removeFirstEq, hq, if_neg, not_false_iff]
      congr 1
      exact ih fun q' hq' => hiff q' (List.mem_cons_of_mem _ hq')

theorem map_erase_eq_self {cols : List (String × List Nat)} {r : Nat}
    (h : r ∉ allColRefs cols) :
    (cols.map fun p => (p.1, p.2.erase r)) = cols := by
  induction cols with
  | nil => rfl
  | cons p rest ih =>
    rw [allColRefs_cons] at h
    have h1 : r ∉ p.2 := fun hr => h (List.mem_append_left _ hr)
    have h2 : r ∉ allColRefs rest := fun hr => h (List.mem_append_right _ hr)
    rw [List.map_cons, List.erase_of_not_mem h1, ih h2]

theorem rfc_eq_map_erase {h : List Task} {t : Task} {r : Nat}
    {cols : List (String × List Nat)}
    (hiff : ∀ q ∈ allColRefs cols, (hget h q = t ↔ q = r))
    (hnd : (allColRefs cols).Nodup) :
    removeFirstContaining h t cols = cols.map fun p => (p.1, p.2.erase r) := by
  induction cols with
  | nil => rfl
  | cons p rest ih =>
    obtain ⟨c, rs⟩ := p
    rw [allColRefs_cons] at hiff hnd
    by_cases hany : (rs.any fun q => decide (hget h q = t)) = true
    · obtain ⟨q, hq, hqt⟩ := List.any_eq_true.mp hany
      have hqr : q = r := (hiff q (List.mem_append_left _ hq)).mp (of_decide_eq_true hqt)
      have hrrs : r ∈ rs := hqr ▸ hq
      have hrrest : r ∉ allColRefs rest :=
        List.disjoint_of_nodup_append hnd hrrs
      simp only [removeFirstContaining, hany, if_pos, List.map_cons,
        map_erase_eq_self hrrest]
      rw [removeFirstEq_eq_erase fun q' hq' => hiff q' (List.mem_append_left _ hq')]
    · have hrrs : r ∉ rs := by
        intro hr
        exact hany (List.any_eq_true.mpr
          ⟨r, hr, decide_eq_true ((hiff r (List.mem_append_left _ hr)).mpr rfl)⟩)
      simp only [removeFirstContaining, hany, if_neg, not_false_iff,
        List.map_cons, List.erase_of_not_mem hrrs]
      rw [ih (fun q hq => hiff q (List.mem_append_right _ hq)) hnd.of_append_right]
      simp

theorem allColRefs_map_erase {cols : List (String × List Nat)} {r : Nat}
    (hnd : (allColRefs cols).Nodup) :
    (allColRefs (cols.map fun p => (p.1, p.2.erase r))).Perm
      ((allColRefs cols).erase r) := by
  induction cols with
  | nil => simp [allColRefs]
  | cons p rest ih =>
    obtain ⟨c, rs⟩ := p
    rw [allColRefs_cons] at hnd ⊢
    by_cases hr : r ∈ rs
    · have hrrest : r ∉ allColRefs rest :=
        List.disjoint_of_nodup_append hnd hr
      rw [List.map_cons, allColRefs_cons, map_erase_eq_self hrrest,
        List.erase_append_left _ hr]
    · rw [List.map_cons, allColRefs_cons,
        List.erase_append_right _ hr]
      simpa [List.erase_of_not_mem hr] using
        ((ih hnd.of_append_right).append_left rs)

/-! ### Facts derived from well-formedness -/

theorem WF.dbRefsNodup {db : Database} (wf : WF db) :
    (db.tasks_db.map Prod.snd).Nodup := by
  have hc : db.tasks_db.map Prod.fst
      = (db.tasks_db.map Prod.snd).map fun r => (hget db.heap r).id := by
    rw [List.map_map]
    exact (List.map_congr_left fun p hp => (wf.idConsistent p hp).symm)
  exact List.Nodup.of_map _ (hc ▸ wf.keysNodup)

theorem WF.colRefsNodup {db : Database} (wf : WF db) :
    (allColRefs db.columns).Nodup :=
  wf.refsPerm.nodup_iff.mpr wf.dbRefsNodup

theorem WF.uniqueVal {db : Database} (wf : WF db) {id : String} {r : Nat}
    (hmem : (id, r) ∈ db.tasks_db) :
    ∀ q ∈ allColRefs db.columns,
      (hget db.heap q = hget db.heap r ↔ q = r) := by
  intro q hq
  constructor
  · intro he
    have hq' : q ∈ db.tasks_db.map Prod.snd := wf.refsPerm.mem_iff.mp hq
    obtain ⟨p, hp, hpq⟩ := List.mem_map.mp hq'
    have hid1 : (hget db.heap q).id = p.1 := hpq ▸ wf.idConsistent p hp
    have hid2 : (hget db.heap r).id = id := wf.idConsistent (id, r) hmem
    have hkey : p.1 = id := by rw [← hid1, he, hid2]
    have e1 : alookup db.tasks_db id = some r :=
      alookup_of_mem_nodup wf.keysNodup hmem
    have e2 : alookup db.tasks_db id = some q := by
      have : (id, q) ∈ db.tasks_db := by
        have : p = (id, q) := by
          obtain ⟨a, b⟩ := p
          simp only [Prod.mk.injEq]
          exact ⟨hkey, hpq⟩
        exact this ▸ hp
      exact alookup_of_mem_nodup wf.keysNodup this
    rw [e1] at e2
    exact (Option.some.injEq .. ▸ e2).symm
  · intro he
    rw [he]

theorem countP_eq_one_of_mem_nodup {l : List String} {id : String}
    (hnd : l.Nodup) (hm : id ∈ l) :
    (l.countP fun k => decide (k = id)) = 1 := by
  induction l with
  | nil => simp at hm
  | cons a tl ih =>
    rw [List.nodup_cons] at hnd
    by_cases ha : a = id
    · subst ha
      have hz : (tl.countP fun k => decide (k = a)) = 0 :=
        List.countP_eq_zero.mpr fun k hk hdk =>
          hnd.1 (of_decide_eq_true hdk ▸ hk)
      simp [List.countP_cons, hz]
    · have hm' : id ∈ tl := by
        rcases List.mem_cons.mp hm with he | hm'
        exacts [absurd he.symm ha, hm']
      simp [List.countP_cons, ha, ih hnd.2 hm']

theorem WF.countId {db : Database} (wf : WF db) {id : String} {r : Nat}
    (hs : alookup db.tasks_db id = some r) : countIdInCols db id = 1 := by
  unfold countIdInCols
  rw [wf.refsPerm.countP_eq]
  have h1 : (db.tasks_db.map Prod.snd).countP
        (fun q => decide ((hget db.heap q).id = id))
      = db.tasks_db.countP fun p => decide ((hget db.heap p.2).id = id) :=
    List.countP_map (fun q => decide ((hget db.heap q).id = id)) Prod.snd db.tasks_db
  have h2 : (db.tasks_db.countP fun p => decide ((hget db.heap p.2).id = id))
      = db.tasks_db.countP fun p => decide (p.1 = id) := by
    apply List.countP_congr
    intro p hp
    rw [wf.idConsistent p hp]
  have h3 : (db.tasks_db.countP fun p => decide (p.1 = id))
      = (db.tasks_db.map Prod.fst).countP fun k => decide (k = id) :=
    (List.countP_map (fun k => decide (k = id)) Prod.fst db.tasks_db).symm
  rw [h1, h2, h3]
  exact countP_eq_one_of_mem_nodup wf.keysNodup
    (alookup_isSome_iff.mp (hs ▸ rfl))


/-! ### More association-list and permutation helpers -/

theorem nodup_append_singleton {α : Type} {l : List α} {a : α}
    (hnd : l.Nodup) (ha : a ∉ l) : (l ++ [a]).Nodup :=
  (List.perm_append_singleton a l).nodup_iff.mpr (List.nodup_cons.mpr ⟨ha, hnd⟩)

theorem aupdate_eq_self_of_not_mem {α : Type} {m : List (String × α)}
    {k : String} (f : α → α) (h : k ∉ m.map Prod.fst) : aupdate m k f = m := by
  induction m with
  | nil => rfl
  | cons p rest ih =>
    simp only [List.map_cons, List.mem_cons, not_or] at h
    simp only [aupdate, if_neg (Ne.symm h.1 ∘ Eq.symm), ih h.2]
    simp [aupdate, Ne.symm h.1]

theorem aerase_eq_self_of_not_mem {α : Type} {m : List (String × α)}
    {k : String} (h : k ∉ m.map Prod.fst) : aerase m k = m := by
  induction m with
  | nil => rfl
  | cons p rest ih =>
    simp only [List.map_cons, List.mem_cons, not_or] at h
    simp [aerase, Ne.symm h.1, ih h.2]

theorem mem_aerase_of_ne {α : Type} {m : List (String × α)} {k : String}
    {p : String × α} (hp : p ∈ m) (hne : p.1 ≠ k) : p ∈ aerase m k := by
  induction m with
  | nil => simp at hp
  | cons q rest ih =>
    rcases List.mem_cons.mp hp with he | hm
    · subst he
      simp [aerase, hne]
    · by_cases hq : q.1 = k
      · simp only [aerase, hq, if_pos]
        exact ih hm
      · simp only [aerase, hq, if_neg, not_false_iff]
        exact List.mem_cons_of_mem _ (ih hm)

theorem mem_unique_of_keys_nodup {α : Type} {m : List (String × α)}
    {k : String} {v w : α} (hnd : (m.map Prod.fst).Nodup)
    (h1 : (k, v) ∈ m) (h2 : (k, w) ∈ m) : v = w := by
  have e1 := alookup_of_mem_nodup hnd h1
  have e2 := alookup_of_mem_nodup hnd h2
  rw [e1] at e2
  exact Option.some.injEq .. ▸ e2

theorem aerase_map_snd {m : List (String × Nat)} {id : String} {r : Nat}
    (hk : (m.map Prod.fst).Nodup) (hs : (m.map Prod.snd).Nodup)
    (hmem : (id, r) ∈ m) :
    (aerase m id).map Prod.snd = (m.map Prod.snd).erase r := by
  induction m with
  | nil => simp at hmem
  | cons p rest ih =>
    obtain ⟨a, b⟩ := p
    simp only [List.map_cons, List.nodup_cons] at hk hs
    by_cases ha : a = id
    · subst ha
      have hbr : b = r := by
        rcases List.mem_cons.mp hmem with he | hm
        · exact (Prod.mk.injEq .. ▸ he).2.symm
        · exact absurd (List.mem_map.mpr ⟨_, hm, rfl⟩) hk.1
      subst hbr
      have : aerase rest a = rest := aerase_eq_self_of_not_mem hk.1
      simp [aerase, this, List.erase_cons_head]
    · have hm : (id, r) ∈ rest := by
        rcases List.mem_cons.mp hmem with he | hm
        · exact absurd (Prod.mk.injEq .. ▸ he).1.symm ha
        · exact hm
      have hbr : b ≠ r := fun he =>
        hs.1 (he ▸ List.mem_map.mpr ⟨_, hm, rfl⟩)
      rw [show aerase ((a, b) :: rest) id = (a, b) :: aerase rest id from by
          simp [aerase, ha],
        List.map_cons, List.map_cons,
        List.erase_cons_tail (by simp [hbr]), ih hk.2 hs.2 hm]

theorem allColRefs_aupdate_perm {cols : List (String × List Nat)} {c : String}
    {g : List Nat → List Nat} {r : Nat}
    (hg : ∀ xs, (g xs).Perm (xs ++ [r]))
    (hnd : (cols.map Prod.fst).Nodup) (hc : c ∈ cols.map Prod.fst) :
    (allColRefs (aupdate cols c g)).Perm (allColRefs cols ++ [r]) := by
  induction cols with
  | nil => simp at hc
  | cons p rest ih =>
    obtain ⟨a, rs⟩ := p
    simp only [List.map_cons, List.nodup_cons] at hnd
    by_cases ha : a = c
    · subst ha
      have hrest : aupdate rest a g = rest :=
        aupdate_eq_self_of_not_mem g hnd.1
      rw [show aupdate ((a, rs) :: rest) a g = (a, g rs) :: aupdate rest a g
          from by simp [aupdate], hrest, allColRefs_cons, allColRefs_cons]
      refine ((hg rs).append_right _).trans ?_
      rw [List.append_assoc, List.append_assoc]
      exact List.Perm.append_left rs List.perm_append_comm
    · have hc' : c ∈ rest.map Prod.fst := by
        rcases List.mem_cons.mp hc with he | hm
        · exact absurd he.symm ha
        · exact hm
      rw [show aupdate ((a, rs) :: rest) c g = (a, rs) :: aupdate rest c g
          from by simp [aupdate, ha], allColRefs_cons, allColRefs_cons]
      have hp := List.Perm.append_left rs (ih hnd.2 hc')
      rw [List.append_assoc]
      exact hp

theorem append_diff_self {l z : List Nat} : (l ++ z).diff l = z := by
  induction l generalizing z with
  | nil => simp
  | cons a tl ih =>
    rw [List.cons_append, List.diff_cons, List.erase_cons_head, ih]

theorem allColRefs_aset_empty {cols : List (String × List Nat)} {cid : String}
    {rs : List Nat} (hc : alookup cols cid = some rs) :
    (allColRefs (aset cols cid []) ++ rs).Perm (allColRefs cols) := by
  induction cols with
  | nil => simp [alookup] at hc
  | cons p rest ih =>
    obtain ⟨a, xs⟩ := p
    by_cases ha : a = cid
    · subst ha
      simp only [alookup, if_pos] at hc
      have hxs : xs = rs := Option.some.injEq .. ▸ hc
      subst hxs
      rw [show aset ((a, xs) :: rest) a [] = (a, ([] : List Nat)) :: rest
          from by simp [aset], allColRefs_cons, allColRefs_cons]
      simpa using List.perm_append_comm
    · simp only [alookup, ha, if_neg, not_false_iff] at hc
      rw [show aset ((a, xs) :: rest) cid [] = (a, xs) :: aset rest cid []
          from by simp [aset, ha], allColRefs_cons, allColRefs_cons,
        List.append_assoc]
      exact List.Perm.append_left xs (ih hc)

/-! ### Preservation of well-formedness -/

theorem WF.empty : WF emptyDB where
  keysNodup := List.nodup_nil
  colKeysNodup := List.nodup_nil
  bounds := by intro p hp; simp [emptyDB] at hp
  idConsistent := by intro p hp; simp [emptyDB] at hp
  refsPerm := by simp [emptyDB, allColRefs]

theorem ensureCol_refs (cols : List (String × List Nat)) (c : String) :
    allColRefs (ensureCol cols c) = allColRefs cols := by
  unfold ensureCol
  by_cases hc : (alookup cols c).isNone
  · rw [if_pos hc, aset_eq_append _ (Option.isNone_iff_eq_none.mp hc)]
    simp [allColRefs]
  · rw [if_neg hc]

theorem ensureCol_keys_nodup {cols : List (String × List Nat)} {c : String}
    (hnd : (cols.map Prod.fst).Nodup) :
    ((ensureCol cols c).map Prod.fst).Nodup := by
  unfold ensureCol
  by_cases hc : (alookup cols c).isNone
  · rw [if_pos hc, aset_eq_append _ (Option.isNone_iff_eq_none.mp hc)]
    simp only [List.map_append, List.map_cons, List.map_nil]
    exact nodup_append_singleton hnd
      (alookup_eq_none_iff.mp (Option.isNone_iff_eq_none.mp hc))
  · rw [if_neg hc]
    exact hnd

theorem ensureCol_mem (cols : List (String × List Nat)) (c : String) :
    c ∈ (ensureCol cols c).map Prod.fst := by
  unfold ensureCol
  by_cases hc : (alookup cols c).isNone
  · rw [if_pos hc, aset_eq_append _ (Option.isNone_iff_eq_none.mp hc)]
    simp
  · rw [if_neg hc, ← alookup_isSome_iff]
    cases ho : alookup cols c with
    | none => exact absurd (by simp [ho]) hc
    | some v => simp [ho]

theorem alookup_ensureCol_self (cols : List (String × List Nat)) (c : String) :
    alookup (ensureCol cols c) c = some ((alookup cols c).getD []) := by
  unfold ensureCol
  cases ho : alookup cols c with
  | none => simp [ho, alookup_aset_self]
  | some v => simp [ho]

theorem alookup_ensureCol_ne (cols : List (String × List Nat)) {c q : String}
    (h : q ≠ c) : alookup (ensureCol cols c) q = alookup cols q := by
  unfold ensureCol
  by_cases hc : (alookup cols c).isNone
  · rw [if_pos hc, alookup_aset_ne _ _ h]
  · rw [if_neg hc]

theorem WF.add {db : Database} (wf : WF db) {t : Task} {col : String}
    (hfresh : alookup db.tasks_db t.id = none) : WF (db.add t col) := by
  have hkid : t.id ∉ db.tasks_db.map Prod.fst := alookup_eq_none_iff.mp hfresh
  have htdb : (db.add t col).tasks_db
      = db.tasks_db ++ [(t.id, db.heap.length)] := by
    simp [Database.add, aset_eq_append _ hfresh]
  have hheap : (db.add t col).heap = db.heap ++ [t] := rfl
  have hcolsEq : (db.add t col).columns
      = aupdate (ensureCol db.columns col) col
        fun rs => rs ++ [db.heap.length] := rfl
  constructor
  · rw [htdb]
    simp only [List.map_append, List.map_cons, List.map_nil]
    exact nodup_append_singleton wf.keysNodup hkid
  · rw [hcolsEq, aupdate_map_fst]
    exact ensureCol_keys_nodup wf.colKeysNodup
  · intro p hp
    rw [htdb] at hp
    rw [hheap]
    rcases List.mem_append.mp hp with hm | hm
    · have := wf.bounds p hm
      simp only [List.length_append, List.length_cons, List.length_nil]
      omega
    · simp only [List.mem_singleton] at hm
      subst hm
      simp
  · intro p hp
    rw [htdb] at hp
    rw [hheap]
    rcases List.mem_append.mp hp with hm | hm
    · rw [hget_append_lt _ (wf.bounds p hm)]
      exact wf.idConsistent p hm
    · simp only [List.mem_singleton] at hm
      subst hm
      rw [hget_append_length]
  · rw [hcolsEq, htdb]
    refine (allColRefs_aupdate_perm (fun xs => List.Perm.refl _)
      (ensureCol_keys_nodup wf.colKeysNodup) (ensureCol_mem _ _)).trans ?_
    rw [ensureCol_refs]
    simp only [List.map_append, List.map_cons, List.map_nil]
    exact wf.refsPerm.append_right _

theorem applyPatch_id (p : TaskPatch) (t : Task) :
    (applyPatch p t).id = t.id := rfl

theorem WF.update_task {db : Database} (wf : WF db) (id : String)
    (p : TaskPatch) : WF (db.update_task id p).2 := by
  unfold Database.update_task
  cases hl : alookup db.tasks_db id with
  | none => exact wf
  | some r =>
    have hrb : r < db.heap.length := wf.bounds _ (alookup_mem hl)
    constructor
    · exact wf.keysNodup
    · exact wf.colKeysNodup
    · intro q hq
      simpa using wf.bounds q hq
    · intro q hq
      by_cases hqr : q.2 = r
      · rw [show hget (db.heap.set r (applyPatch p (hget db.heap r))) q.2
            = applyPatch p (hget db.heap r) from by
          rw [hqr, hget_set_self, if_pos hrb]]
        rw [applyPatch_id, ← hqr]
        exact wf.idConsistent q hq
      · rw [hget_set_ne _ _ hqr]
        exact wf.idConsistent q hq
    · exact wf.refsPerm

theorem clearCategory_length (cid : String) (l : List (String × Nat))
    (h : List Task) : (clearCategory cid l h).length = h.length := by
  induction l generalizing h with
  | nil => rfl
  | cons e rest ih =>
    obtain ⟨k, r⟩ := e
    by_cases hc : (hget h r).category_id = some cid
    · simp only [clearCategory, hc, if_pos]
      rw [ih]
      simp
    · simp only [clearCategory, hc, if_neg, not_false_iff]
      exact ih h

theorem hget_oob {h : List Task} {r : Nat} (hb : h.length ≤ r) :
    hget h r = default := by
  simp [hget, List.getD, List.getElem?_eq_none hb]

theorem clearCat_id (cid : String) (t : Task) :
    (clearCat cid t).id = t.id := by
  unfold clearCat
  split <;> rfl

theorem clearCat_idem (cid : String) (t : Task) :
    clearCat cid (clearCat cid t) = clearCat cid t := by
  unfold clearCat
  by_cases hc : t.category_id = some cid <;> simp [hc]

theorem clearCat_default (cid : String) : clearCat cid default = default := by
  simp [clearCat, default]

theorem clearCategory_cons (cid k : String) (r : Nat)
    (rest : List (String × Nat)) (h : List Task) :
    clearCategory cid ((k, r) :: rest) h
      = clearCategory cid rest (h.set r (clearCat cid (hget h r))) := by
  by_cases hc : (hget h r).category_id = some cid
  · simp [clearCategory, clearCat, hc]
  · simp [clearCategory, clearCat, hc, set_hget_self]

theorem hget_clearCategory (cid : String) (l : List (String × Nat))
    (h : List Task) (q : Nat) :
    hget (clearCategory cid l h) q =
      (if l.any fun e => decide (e.2 = q) then clearCat cid (hget h q)
      else hget h q) := by
  induction l generalizing h with
  | nil => simp [clearCategory]
  | cons e rest ih =>
    obtain ⟨k, r⟩ := e
    rw [clearCategory_cons, ih]
    by_cases hrq : r = q
    · subst hrq
      have hv : hget (h.set r (clearCat cid (hget h r))) r
          = clearCat cid (hget h r) := by
        rw [hget_set_self]
        by_cases hb : r < h.length
        · rw [if_pos hb]
        · rw [if_neg hb, hget_oob (le_of_not_lt hb), clearCat_default]
      rw [hv]
      have hhead : ((((k, r) :: rest).any fun e => decide (e.2 = r)) = true) := by
        simp [List.any_cons]
      rw [if_pos hhead]
      by_cases hany : (rest.any fun e => decide (e.2 = r)) = true
      · rw [if_pos hany, clearCat_idem]
      · rw [if_neg hany]
    · rw [hget_set_ne _ _ fun he => hrq he.symm]
      have hcond : (((k, r) :: rest).any fun e => decide (e.2 = q))
          = (rest.any fun e => decide (e.2 = q)) := by
        simp [List.any_cons, hrq]
      rw [hcond]

theorem hget_clearCategory_id (cid : String) (l : List (String × Nat))
    (h : List Task) (q : Nat) :
    (hget (clearCategory cid l h) q).id = (hget h q).id := by
  rw [hget_clearCategory]
  by_cases hany : (l.any fun e => decide (e.2 = q)) = true
  · rw [if_pos hany, clearCat_id]
  · rw [if_neg hany]

theorem WF.delete_category {db : Database} (wf : WF db) (cid : String) :
    WF (db.delete_category cid).2 := by
  unfold Database.delete_category
  by_cases hc : (alookup db.categories cid).isNone
  · simp only [hc, if_pos]
    exact wf
  · simp only [hc, if_neg, not_false_iff]
    constructor
    · exact wf.keysNodup
    · exact wf.colKeysNodup
    · intro q hq
      simpa [clearCategory_length] using wf.bounds q hq
    · intro q hq
      simpa [hget_clearCategory_id] using wf.idConsistent q hq
    · exact wf.refsPerm

theorem map_fst_map_pair {α β : Type} (cols : List (String × α))
    (g : String × α → β) :
    ((cols.map fun p => (p.1, g p)).map Prod.fst) = cols.map Prod.fst := by
  rw [List.map_map]
  exact List.map_congr_left fun p hp => rfl

theorem WF.delete {db : Database} (wf : WF db) (id : String) :
    WF (db.delete id).2 := by
  unfold Database.delete
  cases hl : alookup db.tasks_db id with
  | none => exact wf
  | some r =>
    have hmem := alookup_mem hl
    have hrfc := rfc_eq_map_erase (wf.uniqueVal hmem) wf.colRefsNodup
    constructor
    · show ((aerase db.tasks_db id).map Prod.fst).Nodup
      exact ((aerase_map_fst_sublist _ _).nodup wf.keysNodup)
    · show ((removeFirstContaining db.heap (hget db.heap r)
        db.columns).map Prod.fst).Nodup
      rw [hrfc, map_fst_map_pair]
      exact wf.colKeysNodup
    · show ∀ p ∈ aerase db.tasks_db id, p.2 < db.heap.length
      intro q hq
      exact wf.bounds q (mem_of_mem_aerase hq)
    · show ∀ p ∈ aerase db.tasks_db id, (hget db.heap p.2).id = p.1
      intro q hq
      exact wf.idConsistent q (mem_of_mem_aerase hq)
    · show (allColRefs (removeFirstContaining db.heap (hget db.heap r)
        db.columns)).Perm ((aerase db.tasks_db id).map Prod.snd)
      rw [hrfc, aerase_map_snd wf.keysNodup wf.dbRefsNodup hmem]
      exact (allColRefs_map_erase wf.colRefsNodup).trans (wf.refsPerm.erase r)

theorem WF.move {db : Database} (wf : WF db) (id tgt : String) (idx : Int) :
    WF (db.move id tgt idx).2 := by
  unfold Database.move
  cases hl : alookup db.tasks_db id with
  | none => exact wf
  | some r =>
    have hmem := alookup_mem hl
    have hrfc := rfc_eq_map_erase (wf.uniqueVal hmem) wf.colRefsNodup
    have hr_all : r ∈ allColRefs db.columns :=
      wf.refsPerm.mem_iff.mpr (List.mem_map.mpr ⟨(id, r), hmem, rfl⟩)
    have hnd1 : ((removeFirstContaining db.heap (hget db.heap r)
        db.columns).map Prod.fst).Nodup := by
      rw [hrfc, map_fst_map_pair]
      exact wf.colKeysNodup
    constructor
    · exact wf.keysNodup
    · show ((aupdate (ensureCol (removeFirstContaining db.heap (hget db.heap r)
        db.columns) tgt) tgt (pyInsert idx r)).map Prod.fst).Nodup
      rw [aupdate_map_fst]
      exact ensureCol_keys_nodup hnd1
    · show ∀ p ∈ db.tasks_db, p.2 < db.heap.length
      exact wf.bounds
    · show ∀ p ∈ db.tasks_db, (hget db.heap p.2).id = p.1
      exact wf.idConsistent
    · show (allColRefs (aupdate (ensureCol (removeFirstContaining db.heap
        (hget db.heap r) db.columns) tgt) tgt
        (pyInsert idx r))).Perm (db.tasks_db.map Prod.snd)
      refine (allColRefs_aupdate_perm
        (fun xs => (pyInsert_perm idx r xs).trans
          (List.perm_append_singleton r xs).symm)
        (ensureCol_keys_nodup hnd1) (ensureCol_mem _ _)).trans ?_
      rw [ensureCol_refs, hrfc]
      refine (((allColRefs_map_erase wf.colRefsNodup).append_right _).trans ?_)
      refine ((List.perm_append_singleton r _).trans ?_)
      exact (List.perm_cons_erase hr_all).symm.trans wf.refsPerm

theorem delAll_lookup {h : List Task} {rs : List Nat}
    {m : List (String × Nat)}
    (hnd : (rs.map fun q => (hget h q).id).Nodup)
    (hpres : ∀ q ∈ rs, (alookup m (hget h q).id).isSome) :
    (delAll h rs m).1 = none ∧
    ∀ id, alookup (delAll h rs m).2 id =
      (if id ∈ rs.map fun q => (hget h q).id then none else alookup m id) := by
  induction rs generalizing m with
  | nil =>
    refine ⟨rfl, fun id => ?_⟩
    simp [delAll]
  | cons q tl ih =>
    simp only [List.map_cons, List.nodup_cons] at hnd
    have hq0 : (alookup m (hget h q).id).isSome :=
      hpres q (List.mem_cons_self q tl)
    obtain ⟨v, hv⟩ := Option.isSome_iff_exists.mp hq0
    have hstep : delAll h (q :: tl) m = delAll h tl (aerase m (hget h q).id) := by
      simp only [delAll, hv]
    have hpres' : ∀ p ∈ tl, (alookup (aerase m (hget h q).id)
        (hget h p).id).isSome := by
      intro p hp
      have hne : (hget h p).id ≠ (hget h q).id := fun he =>
        hnd.1 (he ▸ List.mem_map.mpr ⟨p, hp, rfl⟩)
      rw [alookup_aerase_ne _ hne]
      exact hpres p (List.mem_cons_of_mem _ hp)
    obtain ⟨he, hlook⟩ := ih hnd.2 hpres'
    rw [hstep]
    refine ⟨he, fun id => ?_⟩
    rw [hlook id]
    by_cases h1 : id ∈ tl.map fun p => (hget h p).id
    · simp [h1]
    · by_cases h2 : id = (hget h q).id
      · subst h2
        simp [h1, alookup_aerase_self]
      · rw [if_neg h1, alookup_aerase_ne _ h2,
          if_neg (by
            simp only [List.map_cons, List.mem_cons]
            exact fun hc => hc.elim h2 h1)]

theorem delAll_sublist (h : List Task) (rs : List Nat)
    (m : List (String × Nat)) : ((delAll h rs m).2).Sublist m := by
  induction rs generalizing m with
  | nil => exact List.Sublist.refl m
  | cons q tl ih =>
    unfold delAll
    cases alookup m (hget h q).id with
    | none => exact List.Sublist.refl m
    | some v => exact (ih _).trans (aerase_sublist _ _)

theorem delAll_map_snd {h : List Task} {rs : List Nat}
    {m : List (String × Nat)}
    (hk : (m.map Prod.fst).Nodup) (hs : (m.map Prod.snd).Nodup)
    (hmem : ∀ q ∈ rs, ((hget h q).id, q) ∈ m) (hnd : rs.Nodup) :
    ((delAll h rs m).2).map Prod.snd = (m.map Prod.snd).diff rs := by
  induction rs generalizing m with
  | nil => simp [delAll]
  | cons q tl ih =>
    have hq0 : ((hget h q).id, q) ∈ m := hmem q (List.mem_cons_self q tl)
    have hv : alookup m (hget h q).id = some q := alookup_of_mem_nodup hk hq0
    have hstep : delAll h (q :: tl) m = delAll h tl (aerase m (hget h q).id) := by
      simp only [delAll, hv]
    rw [hstep, List.diff_cons,
      ← aerase_map_snd hk hs hq0]
    rw [List.nodup_cons] at hnd
    refine ih ((aerase_map_fst_sublist _ _).nodup hk)
      (((aerase_sublist _ _).map Prod.snd).nodup hs) ?_ hnd.2
    intro p hp
    have hpm : ((hget h p).id, p) ∈ m := hmem p (List.mem_cons_of_mem _ hp)
    refine mem_aerase_of_ne hpm ?_
    intro he
    have he' : (hget h p).id = (hget h q).id := he
    have hqp : q = p :=
      mem_unique_of_keys_nodup hk hq0 (by rw [he'] at hpm; exact hpm)
    exact hnd.1 (hqp ▸ hp)

theorem empty_column_spec {db : Database} {cid : String} {rs : List Nat}
    (hc : alookup db.columns cid = some rs)
    (hidnodup : (rs.map fun q => (hget db.heap q).id).Nodup)
    (hpres : ∀ q ∈ rs, (alookup db.tasks_db (hget db.heap q).id).isSome) :
    db.empty_column cid = (none,
      { db with tasks_db := (delAll db.heap rs db.tasks_db).2,
                columns := aset db.columns cid [],
                has_changes := true }) := by
  obtain ⟨herr, hlook⟩ := delAll_lookup hidnodup hpres
  rcases hde : delAll db.heap rs db.tasks_db with ⟨e, m2⟩
  rw [hde] at herr
  have he : e = none := herr
  subst he
  simp only [Database.empty_column, hc, hde]

theorem WF.empty_column {db : Database} (wf : WF db) (cid : String) :
    WF (db.empty_column cid).2 := by
  cases hc : alookup db.columns cid with
  | none =>
    have : db.empty_column cid = (none, db) := by
      unfold Database.empty_column
      rw [hc]
    rw [this]
    exact wf
  | some rs =>
    have hcolmem : (cid, rs) ∈ db.columns := alookup_mem hc
    have hrs_sub : rs.Sublist (allColRefs db.columns) := by
      obtain ⟨l1, l2, hdec⟩ := List.append_of_mem hcolmem
      rw [hdec]
      show rs.Sublist (allColRefs (l1 ++ (cid, rs) :: l2))
      rw [show allColRefs (l1 ++ (cid, rs) :: l2)
          = allColRefs l1 ++ (rs ++ allColRefs l2) from by
        simp [allColRefs]]
      exact (List.sublist_append_left rs (allColRefs l2)).trans
        (List.sublist_append_right (allColRefs l1) _)
    have hrsnodup : rs.Nodup := hrs_sub.nodup wf.colRefsNodup
    have hmemdb : ∀ q ∈ rs, ((hget db.heap q).id, q) ∈ db.tasks_db := by
      intro q hq
      have hqall : q ∈ allColRefs db.columns :=
        List.mem_flatMap.mpr ⟨(cid, rs), hcolmem, hq⟩
      obtain ⟨p, hp, hpq⟩ :=
        List.mem_map.mp (wf.refsPerm.mem_iff.mp hqall)
      obtain ⟨a, b⟩ := p
      have hb : b = q := hpq
      subst hb
      have ha : (hget db.heap b).id = a := wf.idConsistent (a, b) hp
      rw [ha]
      exact hp
    have hidnodup : (rs.map fun q => (hget db.heap q).id).Nodup := by
      refine List.Nodup.map_on ?_ hrsnodup
      intro q1 h1 q2 h2 he
      exact mem_unique_of_keys_nodup wf.keysNodup
        (he ▸ hmemdb q1 h1) (hmemdb q2 h2)
    have hpres : ∀ q ∈ rs, (alookup db.tasks_db (hget db.heap q).id).isSome := by
      intro q hq
      rw [alookup_of_mem_nodup wf.keysNodup (hmemdb q hq)]
      rfl
    rw [empty_column_spec hc hidnodup hpres]
    have hsub := delAll_sublist db.heap rs db.tasks_db
    constructor
    · show (((delAll db.heap rs db.tasks_db).2).map Prod.fst).Nodup
      exact (hsub.map Prod.fst).nodup wf.keysNodup
    · show ((aset db.columns cid []).map Prod.fst).Nodup
      rw [aset_map_fst_of_isSome _ (by simp [hc])]
      exact wf.colKeysNodup
    · show ∀ p ∈ (delAll db.heap rs db.tasks_db).2, p.2 < db.heap.length
      intro p hp
      exact wf.bounds p (hsub.mem hp)
    · show ∀ p ∈ (delAll db.heap rs db.tasks_db).2,
        (hget db.heap p.2).id = p.1
      intro p hp
      exact wf.idConsistent p (hsub.mem hp)
    · show (allColRefs (aset db.columns cid [])).Perm
        (((delAll db.heap rs db.tasks_db).2).map Prod.snd)
      rw [delAll_map_snd wf.keysNodup wf.dbRefsNodup hmemdb hrsnodup]
      refine List.Perm.trans ?_
        ((((allColRefs_aset_empty hc).trans wf.refsPerm).diff_right rs))
      rw [show allColRefs (aset db.columns cid []) ++ rs
          = ((allColRefs (aset db.columns cid []) ++ rs)) from rfl]
      refine List.Perm.trans ?_ (List.Perm.diff_right rs List.perm_append_comm)
      rw [append_diff_self]

/-! ### Import lemmas -/

/-- Specification device: the bindings `importTasks` produces when started on
an empty map, binding the i-th snapshot key to heap reference `n + i`. -/
def indexList : List (String × TaskData) → Nat → List (String × Nat)
  | [], _ => []
  | (k, _) :: rest, n => (k, n) :: indexList rest (n + 1)

theorem importTasks_heap (ts : List (String × TaskData)) (h : List Task)
    (m : List (String × Nat)) :
    (importTasks ts h m).1 = h ++ ts.map fun p => mkTaskFromData p.2 := by
  induction ts generalizing h m with
  | nil => simp [importTasks]
  | cons p rest ih =>
    obtain ⟨k, td⟩ := p
    rw [show importTasks ((k, td) :: rest) h m
        = importTasks rest (h ++ [mkTaskFromData td]) (aset m k h.length)
        from rfl, ih]
    simp

theorem importTasks_map {ts : List (String × TaskData)} (h : List Task)
    {m : List (String × Nat)} (hnd : (ts.map Prod.fst).Nodup)
    (hdisj : ∀ p ∈ ts, p.1 ∉ m.map Prod.fst) :
    (importTasks ts h m).2 = m ++ indexList ts h.length := by
  induction ts generalizing h m with
  | nil => simp [importTasks, indexList]
  | cons p rest ih =>
    obtain ⟨k, td⟩ := p
    simp only [List.map_cons, List.nodup_cons] at hnd
    have hkm : k ∉ m.map Prod.fst := hdisj (k, td) (List.mem_cons_self _ _)
    have hset : aset m k h.length = m ++ [(k, h.length)] :=
      aset_eq_append _ (alookup_eq_none_iff.mpr hkm)
    have hdisj' : ∀ p ∈ rest, p.1 ∉ (aset m k h.length).map Prod.fst := by
      intro p hp hc
      rw [hset] at hc
      simp only [List.map_append, List.map_cons, List.map_nil,
        List.mem_append, List.mem_singleton] at hc
      rcases hc with hc | hc
      · exact hdisj p (List.mem_cons_of_mem _ hp) hc
      · exact hnd.1 (hc ▸ List.mem_map.mpr ⟨p, hp, rfl⟩)
    rw [show importTasks ((k, td) :: rest) h m
        = importTasks rest (h ++ [mkTaskFromData td]) (aset m k h.length)
        from rfl, ih (h ++ [mkTaskFromData td]) hnd.2 hdisj', hset]
    simp [indexList]

theorem indexList_map_fst (ts : List (String × TaskData)) (n : Nat) :
    (indexList ts n).map Prod.fst = ts.map Prod.fst := by
  induction ts generalizing n with
  | nil => rfl
  | cons p rest ih =>
    obtain ⟨k, td⟩ := p
    simp [indexList, ih]

theorem indexList_mem {ts : List (String × TaskData)} {n : Nat} {k : String}
    {q : Nat} (h : (k, q) ∈ indexList ts n) :
    ∃ i td, q = n + i ∧ ts[i]? = some (k, td) ∧ (k, td) ∈ ts := by
  induction ts generalizing n with
  | nil => simp [indexList] at h
  | cons p rest ih =>
    obtain ⟨a, td⟩ := p
    rcases List.mem_cons.mp h with he | hm
    · obtain ⟨h1, h2⟩ := Prod.mk.injEq .. ▸ he
      exact ⟨0, td, by omega, by simp [← h1], by simp [← h1]⟩
    · obtain ⟨i, td', hq, hget', hmem'⟩ := ih hm
      exact ⟨i + 1, td', by omega, by simpa using hget',
        List.mem_cons_of_mem _ hmem'⟩

theorem alookup_indexList {ts : List (String × TaskData)} {k : String}
    {td : TaskData} (n : Nat) (hnd : (ts.map Prod.fst).Nodup)
    (hm : (k, td) ∈ ts) :
    ∃ i, alookup (indexList ts n) k = some (n + i) ∧ ts[i]? = some (k, td) := by
  induction ts generalizing n with
  | nil => simp at hm
  | cons p rest ih =>
    obtain ⟨a, td'⟩ := p
    simp only [List.map_cons, List.nodup_cons] at hnd
    by_cases ha : a = k
    · subst ha
      have he : td' = td := by
        rcases List.mem_cons.mp hm with he | hm'
        · exact ((Prod.mk.injEq .. ▸ he).2).symm
        · exact absurd (List.mem_map.mpr ⟨(a, td), hm', rfl⟩) hnd.1
      subst he
      exact ⟨0, by simp [indexList, alookup], by simp⟩
    · have hm' : (k, td) ∈ rest := by
        rcases List.mem_cons.mp hm with he | hm'
        · exact absurd ((Prod.mk.injEq .. ▸ he).1).symm ha
        · exact hm'
      obtain ⟨i, hl, hg⟩ := ih (n + 1) hnd.2 hm'
      refine ⟨i + 1, ?_, by simpa using hg⟩
      have hred : alookup (indexList ((a, td') :: rest) n) k
          = alookup (indexList rest (n + 1)) k := by
        simp [indexList, alookup, ha]
      rw [hred, hl]
      congr 1
      omega

theorem filterMap_alookup_keys {m : List (String × Nat)}
    (hnd : (m.map Prod.fst).Nodup) :
    (m.map Prod.fst).filterMap (alookup m) = m.map Prod.snd := by
  induction m with
  | nil => rfl
  | cons p rest ih =>
    obtain ⟨a, b⟩ := p
    simp only [List.map_cons, List.nodup_cons] at hnd
    have h0 : alookup ((a, b) :: rest) a = some b := by simp [alookup]
    simp only [List.map_cons, List.filterMap_cons, h0]
    congr 1
    have hcongr : ∀ k ∈ rest.map Prod.fst,
        alookup ((a, b) :: rest) k = alookup rest k := by
      intro k hk
      have : a ≠ k := fun he => hnd.1 (he ▸ hk)
      simp [alookup, this]
    rw [List.filterMap_congr hcongr]
    exact ih hnd.2

theorem importColumns_eq {m : List (String × Nat)}
    {cs : List (String × List String)} {acc : List (String × List Nat)}
    (hnd : (cs.map Prod.fst).Nodup)
    (hdisj : ∀ p ∈ cs, p.1 ∉ acc.map Prod.fst) :
    importColumns m cs acc
      = acc ++ cs.map fun p => (p.1, p.2.filterMap fun tid => alookup m tid) := by
  induction cs generalizing acc with
  | nil => simp [importColumns]
  | cons p rest ih =>
    obtain ⟨c, tids⟩ := p
    simp only [List.map_cons, List.nodup_cons] at hnd
    have hcm : c ∉ acc.map Prod.fst := hdisj (c, tids) (List.mem_cons_self _ _)
    have hset : aset acc c (tids.filterMap fun tid => alookup m tid)
        = acc ++ [(c, tids.filterMap fun tid => alookup m tid)] :=
      aset_eq_append _ (alookup_eq_none_iff.mpr hcm)
    have hdisj' : ∀ p ∈ rest,
        p.1 ∉ (aset acc c (tids.filterMap fun tid => alookup m tid)).map
          Prod.fst := by
      intro p hp hc
      rw [hset] at hc
      simp only [List.map_append, List.map_cons, List.map_nil,
        List.mem_append, List.mem_singleton] at hc
      rcases hc with hc | hc
      · exact hdisj p (List.mem_cons_of_mem _ hp) hc
      · exact hnd.1 (hc ▸ List.mem_map.mpr ⟨p, hp, rfl⟩)
    rw [show importColumns m ((c, tids) :: rest) acc
        = importColumns m rest
          (aset acc c (tids.filterMap fun tid => alookup m tid)) from rfl,
      ih hnd.2 hdisj', hset]
    simp

theorem allColRefs_map_filterMap (cs : List (String × List String))
    (f : String → Option Nat) :
    allColRefs (cs.map fun p => (p.1, p.2.filterMap f))
      = (cs.flatMap Prod.snd).filterMap f := by
  induction cs with
  | nil => rfl
  | cons p rest ih =>
    obtain ⟨c, tids⟩ := p
    rw [List.map_cons, allColRefs_cons, ih, List.flatMap_cons,
      List.filterMap_append]

theorem WF.import_from_json {db : Database} {data : SnapshotData}
    (hsnap : SnapWF data) : WF (db.import_from_json data) := by
  obtain ⟨hts, hcs, hid, hperm⟩ := hsnap
  have htdb : (db.import_from_json data).tasks_db
      = indexList (data.tasks.getD []) 0 := by
    show (importTasks (data.tasks.getD []) [] []).2 = _
    rw [importTasks_map [] hts (by intro p hp; simp)]
    rfl
  have hheap : (db.import_from_json data).heap
      = (data.tasks.getD []).map fun p => mkTaskFromData p.2 := by
    show (importTasks (data.tasks.getD []) [] []).1 = _
    rw [importTasks_heap]
    rfl
  have hcols : (db.import_from_json data).columns
      = (data.columns.getD []).map fun p =>
        (p.1, p.2.filterMap fun tid =>
          alookup (indexList (data.tasks.getD []) 0) tid) := by
    show importColumns (importTasks (data.tasks.getD []) [] []).2
      (data.columns.getD []) [] = _
    rw [importColumns_eq hcs (by intro p hp; simp)]
    rw [show (importTasks (data.tasks.getD []) [] []).2
        = indexList (data.tasks.getD []) 0 from htdb]
    rfl
  constructor
  · rw [htdb, indexList_map_fst]
    exact hts
  · rw [hcols, map_fst_map_pair]
    exact hcs
  · intro p hp
    obtain ⟨k, q⟩ := p
    rw [htdb] at hp
    obtain ⟨i, td, hq, hg, hmem⟩ := indexList_mem hp
    obtain ⟨hlt, _⟩ := List.getElem?_eq_some.mp hg
    rw [hheap]
    simp only [List.length_map]
    omega
  · intro p hp
    obtain ⟨k, q⟩ := p
    rw [htdb] at hp
    obtain ⟨i, td, hq, hg, hmem⟩ := indexList_mem hp
    rw [hheap]
    have hsome : ((data.tasks.getD []).map fun p => mkTaskFromData p.2)[q]?
        = some (mkTaskFromData td) := by
      rw [List.getElem?_map, hq]
      simp [hg]
    show (hget ((data.tasks.getD []).map fun p => mkTaskFromData p.2) q).id = k
    rw [show hget ((data.tasks.getD []).map fun p => mkTaskFromData p.2) q
        = mkTaskFromData td from by simp [hget, List.getD, hsome]]
    have hmk : (mkTaskFromData td).id = td.id := rfl
    rw [hmk]
    exact hid (k, td) hmem
  · rw [hcols, htdb, allColRefs_map_filterMap]
    refine (hperm.filterMap _).trans ?_
    rw [show (data.tasks.getD []).map Prod.fst
        = (indexList (data.tasks.getD []) 0).map Prod.fst from
      (indexList_map_fst _ 0).symm]
    rw [filterMap_alookup_keys (by rw [indexList_map_fst]; exact hts)]

theorem WF.exec {db : Database} {op : Op} (wf : WF db) (hl : Legal db op) :
    WF (db.exec op) := by
  cases op with
  | addTask t col => exact wf.add hl
  | updateTask id p => exact wf.update_task id p
  | deleteTask id => exact wf.delete id
  | moveTask id col idx => exact wf.move id col idx
  | emptyColumn col => exact wf.empty_column col
  | deleteCategory cid => exact wf.delete_category cid
  | importSnapshot data => exact WF.import_from_json hl

theorem reachable_wf {db : Database} (h : Reachable db) : WF db := by
  induction h with
  | empty => exact WF.empty
  | step hr hl ih => exact ih.exec hl

/-! ### Claim C1 -/

/-- A snapshot whose single task record is listed in no column: importing it
creates a task-map entry that appears in zero column sequences. -/
def snapOrphan : SnapshotData :=
  { tasks := some [("x", (⟨"x", "t", none, some none⟩ : TaskData))],
    columns := some [],
    categories := none }

/-- C1 (counterexample): the claim quantifies over arbitrary operation
sequences, but a single `importSnapshot` of a snapshot whose task record is
listed in no column leaves id `"x"` in the task map while it appears in zero
column sequences — an orphan, so the invariant fails as stated. -/
theorem c1_counterexample :
    (alookup (emptyDB.execList [Op.importSnapshot snapOrphan]).tasks_db
      "x").isSome = true ∧
    countIdInCols (emptyDB.execList [Op.importSnapshot snapOrphan]) "x" ≠ 1 := by
  constructor
  · decide
  · decide

/-- C1 (amended): after any sequence of store operations starting from the
empty store — where every `addTask` uses an id not already in the task map
(the API layer generates fresh uuid4 ids) and every imported snapshot is
well-formed (unique keys, record ids matching their keys, and every task key
listed exactly once across the snapshot columns) — every task id present in
the task map appears in exactly one column's ordered sequence, counting
multiplicity: no orphan tasks and no duplicate placement. -/
theorem c1_placement_invariant (db : Database) (h : Reachable db)
    (id : String) (hid : (alookup db.tasks_db id).isSome) :
    countIdInCols db id = 1 := by
  obtain ⟨r, hr⟩ := Option.isSome_iff_exists.mp hid
  exact (reachable_wf h).countId hr

/-- C1 (witness): the amended invariant evaluated on the concrete store
obtained by adding one task to the empty store. -/
theorem c1_placement_invariant_witness :
    (alookup ((emptyDB.exec (Op.addTask (⟨"a", "A", none, none⟩ : Task)
      "todo")).tasks_db) "a").isSome = true ∧
    countIdInCols (emptyDB.exec (Op.addTask (⟨"a", "A", none, none⟩ : Task)
      "todo")) "a" = 1 :=
  ⟨by decide, c1_placement_invariant _
    (Reachable.step Reachable.empty (by exact rfl)) "a" (by decide)⟩

/-! ### Claim C2 -/

/-- Task A of the seed scenario. -/
def taskA : Task := ⟨"a", "A", none, none⟩

/-- Task B of the seed scenario. -/
def taskB : Task := ⟨"b", "B", none, none⟩

/-- C2: from the empty store, `add A "todo"` gives ["A"], `add B "todo"` gives
[A, B] in insertion order, `move A.id "todo" 1` reorders to [B, A],
`delete B.id` leaves [A], and `empty_column "todo"` leaves the "todo" sequence
empty with A gone from the task map; no step fails. -/
theorem c2_scenario :
    colTasks (emptyDB.add taskA "todo") "todo" = some [taskA] ∧
    colTasks ((emptyDB.add taskA "todo").add taskB "todo") "todo"
      = some [taskA, taskB] ∧
    (((emptyDB.add taskA "todo").add taskB "todo").move "a" "todo" 1).1
      = none ∧
    colTasks ((((emptyDB.add taskA "todo").add taskB "todo").move
      "a" "todo" 1).2) "todo" = some [taskB, taskA] ∧
    (((((emptyDB.add taskA "todo").add taskB "todo").move
      "a" "todo" 1).2).delete "b").1 = none ∧
    colTasks (((((emptyDB.add taskA "todo").add taskB "todo").move
      "a" "todo" 1).2).delete "b").2 "todo" = some [taskA] ∧
    (((((((emptyDB.add taskA "todo").add taskB "todo").move
      "a" "todo" 1).2).delete "b").2).empty_column "todo").1 = none ∧
    colTasks (((((((emptyDB.add taskA "todo").add taskB "todo").move
      "a" "todo" 1).2).delete "b").2).empty_column "todo").2 "todo"
      = some [] ∧
    alookup ((((((((emptyDB.add taskA "todo").add taskB "todo").move
      "a" "todo" 1).2).delete "b").2).empty_column "todo").2).tasks_db "a"
      = none := by
  decide

/-! ### Claim C3 -/

/-- C3: for every store state and every id absent from the task map, `get`,
`update_task`, `delete` and `move` all fail with the `KeyError` (mapped to
NotFound by the API layer) and return the store completely unchanged, dirty
flag included. -/
theorem c3_missing_id_notfound (db : Database) (id : String)
    (h : alookup db.tasks_db id = none) (p : TaskPatch) (c : String)
    (i : Int) :
    db.get id = Except.error (DBError.notFound id) ∧
    db.update_task id p = (some (DBError.notFound id), db) ∧
    db.delete id = (some (DBError.notFound id), db) ∧
    db.move id c i = (some (DBError.notFound id), db) := by
  refine ⟨?_, ?_, ?_, ?_⟩ <;>
    simp [Database.get, Database.update_task, Database.delete,
      Database.move, h]

/-- C3 (witness): the four operations evaluated at the empty store with the
missing id `"missing"`. -/
theorem c3_missing_id_notfound_witness :
    alookup emptyDB.tasks_db "missing" = none ∧
    (emptyDB.get "missing" = Except.error (DBError.notFound "missing") ∧
    emptyDB.update_task "missing" ⟨none, none, none⟩
      = (some (DBError.notFound "missing"), emptyDB) ∧
    emptyDB.delete "missing" = (some (DBError.notFound "missing"), emptyDB) ∧
    emptyDB.move "missing" "c" 0
      = (some (DBError.notFound "missing"), emptyDB)) :=
  ⟨rfl, c3_missing_id_notfound emptyDB "missing" rfl ⟨none, none, none⟩ "c" 0⟩

/-! ### Claims C5 and C10 -/

/-- C5: `save_to_file` returns `false` and writes nothing when the dirty flag
is clear; when dirty and the write succeeds it writes the export, clears the
flag and returns `true`; a write failure is caught and reported as `false`
with the store untouched; and two consecutive calls with no intervening
mutation return `true` at most once. -/
theorem c5_save_to_file (db : Database) :
    (db.has_changes = false →
      ∀ ok, db.save_to_file ok = ⟨false, db, none⟩) ∧
    (db.has_changes = true →
      db.save_to_file true
        = ⟨true, { db with has_changes := false },
            some db.export_to_json⟩) ∧
    (db.has_changes = true → db.save_to_file false = ⟨false, db, none⟩) ∧
    (∀ ok1 ok2, ¬((db.save_to_file ok1).saved = true ∧
      (((db.save_to_file ok1).state).save_to_file ok2).saved = true)) := by
  refine ⟨?_, ?_, ?_, ?_⟩
  · intro h ok
    simp [Database.save_to_file, h]
  · intro h
    simp [Database.save_to_file, h]
  · intro h
    simp [Database.save_to_file, h]
  · intro ok1 ok2 ⟨h1, h2⟩
    cases h : db.has_changes <;> cases ok1 <;>
      simp_all [Database.save_to_file]

/-- A dirty store with no content, used to evaluate the save claims. -/
def dirtyEmpty : Database := { emptyDB with has_changes := true }

/-- C5 (witness): the success clause evaluated at a concrete dirty store. -/
theorem c5_save_to_file_witness :
    dirtyEmpty.has_changes = true ∧
    dirtyEmpty.save_to_file true
      = ⟨true, { dirtyEmpty with has_changes := false },
          some dirtyEmpty.export_to_json⟩ :=
  ⟨rfl, (c5_save_to_file dirtyEmpty).2.1 rfl⟩

/-- C10: when `save_to_file` is called on a dirty store and the write fails,
the call returns `false` with the store — maps and dirty flag — unchanged,
and a subsequent call whose write succeeds performs the write. -/
theorem c10_save_failure_retry (db : Database) (h : db.has_changes = true) :
    db.save_to_file false = ⟨false, db, none⟩ ∧
    ((db.save_to_file false).state).save_to_file true
      = ⟨true, { db with has_changes := false },
          some db.export_to_json⟩ := by
  constructor
  · simp [Database.save_to_file, h]
  · simp [Database.save_to_file, h]

/-- C10 (witness): the failure-then-retry pair evaluated at a concrete dirty
store. -/
theorem c10_save_failure_retry_witness :
    dirtyEmpty.has_changes = true ∧
    dirtyEmpty.save_to_file false = ⟨false, dirtyEmpty, none⟩ :=
  ⟨rfl, (c10_save_failure_retry dirtyEmpty rfl).1⟩

/-! ### Claim C9 -/

/-- C9: `empty_column` on an existing column deletes every task of that
column's sequence from the task map, clears the column's sequence, leaves
other columns and unrelated task bindings untouched and marks the store
dirty; on a missing column it is a no-op, not an error.  (The hypotheses on
the column's entries — distinct ids, all present in the task map — hold in
every well-formed store, see `WF`.) -/
theorem c9_empty_column (db : Database) (cid : String) :
    (alookup db.columns cid = none → db.empty_column cid = (none, db)) ∧
    (∀ rs, alookup db.columns cid = some rs →
      (rs.map fun q => (hget db.heap q).id).Nodup →
      (∀ q ∈ rs, (alookup db.tasks_db (hget db.heap q).id).isSome) →
      (db.empty_column cid).1 = none ∧
      alookup (db.empty_column cid).2.columns cid = some [] ∧
      (∀ c, c ≠ cid →
        alookup (db.empty_column cid).2.columns c = alookup db.columns c) ∧
      (∀ q ∈ rs,
        alookup (db.empty_column cid).2.tasks_db (hget db.heap q).id
          = none) ∧
      (∀ id, id ∉ rs.map (fun q => (hget db.heap q).id) →
        alookup (db.empty_column cid).2.tasks_db id
          = alookup db.tasks_db id) ∧
      (db.empty_column cid).2.has_changes = true) := by
  constructor
  · intro h
    unfold Database.empty_column
    rw [h]
  · intro rs hc hnd hpres
    obtain ⟨herr, hlook⟩ := delAll_lookup hnd hpres
    rw [empty_column_spec hc hnd hpres]
    refine ⟨rfl, ?_, ?_, ?_, ?_, rfl⟩
    · show alookup (aset db.columns cid []) cid = some []
      exact alookup_aset_self _ _ _
    · intro c hne
      show alookup (aset db.columns cid []) c = alookup db.columns c
      exact alookup_aset_ne _ _ hne
    · intro q hq
      show alookup (delAll db.heap rs db.tasks_db).2 (hget db.heap q).id
        = none
      rw [hlook, if_pos (List.mem_map.mpr ⟨q, hq, rfl⟩)]
    · intro id hid
      show alookup (delAll db.heap rs db.tasks_db).2 id
        = alookup db.tasks_db id
      rw [hlook, if_neg hid]

/-- C9 (witness): emptying the one-task column "todo" of a concrete store. -/
theorem c9_empty_column_witness :
    alookup (emptyDB.add taskA "todo").columns "todo" = some [0] ∧
    ((emptyDB.add taskA "todo").empty_column "todo").1 = none ∧
    alookup ((emptyDB.add taskA "todo").empty_column "todo").2.columns
      "todo" = some [] ∧
    alookup ((emptyDB.add taskA "todo").empty_column "todo").2.tasks_db "a"
      = none := by
  have h := (c9_empty_column (emptyDB.add taskA "todo") "todo").2 [0]
    (by decide) (by decide) (by decide)
  exact ⟨by decide, h.1, h.2.1, h.2.2.2.1 0 (by decide)⟩

/-! ### Claim C7 -/

/-- C7: deleting an existing category removes it from the category map,
leaves all other categories alone, maps every task record through
`clearCat` — the reference of every task pointing at the deleted category
becomes `none`, every other task field is untouched — and leaves the column
sequences and the task-map bindings unchanged, marking the store dirty;
deleting an absent category id fails with the `KeyError` mapped to NotFound
and changes nothing. -/
theorem c7_delete_category (db : Database) (cid : String) :
    (alookup db.categories cid = none →
      db.delete_category cid = (some (DBError.notFound cid), db)) ∧
    ((alookup db.categories cid).isSome →
      (db.delete_category cid).1 = none ∧
      alookup (db.delete_category cid).2.categories cid = none ∧
      (∀ c, c ≠ cid → alookup (db.delete_category cid).2.categories c
        = alookup db.categories c) ∧
      (∀ id, taskAt (db.delete_category cid).2 id
        = (taskAt db id).map (clearCat cid)) ∧
      (db.delete_category cid).2.columns = db.columns ∧
      (db.delete_category cid).2.tasks_db = db.tasks_db ∧
      (db.delete_category cid).2.has_changes = true) := by
  constructor
  · intro h
    unfold Database.delete_category
    rw [if_pos (by simp [h])]
  · intro h
    have hne : ¬ (alookup db.categories cid).isNone = true := by
      cases ho : alookup db.categories cid with
      | none => rw [ho] at h; exact absurd h (by simp)
      | some v => simp [ho]
    have hstep : db.delete_category cid = (none,
        { db with heap := clearCategory cid db.tasks_db db.heap,
                  categories := aerase db.categories cid,
                  has_changes := true }) := by
      unfold Database.delete_category
      rw [if_neg hne]
    rw [hstep]
    refine ⟨rfl, ?_, ?_, ?_, rfl, rfl, rfl⟩
    · show alookup (aerase db.categories cid) cid = none
      exact alookup_aerase_self _ _
    · intro c hc
      show alookup (aerase db.categories cid) c = alookup db.categories c
      exact alookup_aerase_ne _ hc
    · intro id
      show (alookup db.tasks_db id).map
          (hget (clearCategory cid db.tasks_db db.heap))
        = ((alookup db.tasks_db id).map (hget db.heap)).map (clearCat cid)
      cases hl : alookup db.tasks_db id with
      | none => rfl
      | some r =>
        show some (hget (clearCategory cid db.tasks_db db.heap) r)
          = some (clearCat cid (hget db.heap r))
        rw [hget_clearCategory,
          if_pos (List.any_eq_true.mpr
            ⟨(id, r), alookup_mem hl, decide_eq_true rfl⟩)]

/-- A concrete store with one task referencing one category. -/
def dbCat : Database :=
  { heap := [⟨"a", "A", none, some "c1"⟩],
    tasks_db := [("a", 0)],
    columns := [("todo", [0])],
    categories := [("c1", ⟨"c1", "work", "red"⟩)],
    has_changes := false }

/-- C7 (witness): deleting the category of `dbCat` succeeds, removes it from
the category map, and nulls the task's category reference. -/
theorem c7_delete_category_witness :
    (alookup dbCat.categories "c1").isSome = true ∧
    ((dbCat.delete_category "c1").1 = none ∧
    alookup (dbCat.delete_category "c1").2.categories "c1" = none ∧
    taskAt (dbCat.delete_category "c1").2 "a"
      = some ⟨"a", "A", none, none⟩) := by
  have h := (c7_delete_category dbCat "c1").2 (by decide)
  refine ⟨by decide, h.1, h.2.1, ?_⟩
  rw [h.2.2.2.1 "a"]
  decide

/-! ### Claim C6 -/

/-- C6: for a task id bound to heap reference `r` in a well-formed store,
`move` succeeds, leaves the heap and the task map unchanged, removes the
task's (unique) column occurrence — every column other than the target loses
exactly the occurrence of `r`, a no-op for the columns not containing it —
and the target column, created empty when absent, receives `r` at the
position given by Python `list.insert` semantics; in particular an index at
or past the end appends. -/
theorem c6_move (db : Database) (id tgt : String) (idx : Int) (r : Nat)
    (hwf : WF db) (hr : alookup db.tasks_db id = some r) :
    (db.move id tgt idx).1 = none ∧
    (db.move id tgt idx).2.heap = db.heap ∧
    (db.move id tgt idx).2.tasks_db = db.tasks_db ∧
    (∀ c, c ≠ tgt → alookup (db.move id tgt idx).2.columns c
      = (alookup db.columns c).map fun rs => rs.erase r) ∧
    alookup (db.move id tgt idx).2.columns tgt
      = some (pyInsert idx r (((alookup db.columns tgt).getD []).erase r)) ∧
    (db.move id tgt idx).2.has_changes = true ∧
    (∀ (j : Int) (x : Nat) (xs : List Nat), (xs.length : Int) ≤ j →
      pyInsert j x xs = xs ++ [x]) := by
  have hrfc := rfc_eq_map_erase (hwf.uniqueVal (alookup_mem hr))
    hwf.colRefsNodup
  have hstep : db.move id tgt idx = (none,
      { db with
          columns := aupdate (ensureCol (removeFirstContaining db.heap
            (hget db.heap r) db.columns) tgt) tgt (pyInsert idx r),
          has_changes := true }) := by
    unfold Database.move
    rw [hr]
  rw [hstep]
  refine ⟨rfl, rfl, rfl, ?_, ?_, rfl,
    fun j x xs hj => pyInsert_append_of_ge x hj⟩
  · intro c hc
    show alookup (aupdate (ensureCol (removeFirstContaining db.heap
        (hget db.heap r) db.columns) tgt) tgt (pyInsert idx r)) c
      = (alookup db.columns c).map fun rs => rs.erase r
    rw [alookup_aupdate_ne _ _ hc, alookup_ensureCol_ne _ hc, hrfc]
    exact alookup_map_values db.columns (fun rs => rs.erase r) c
  · show alookup (aupdate (ensureCol (removeFirstContaining db.heap
        (hget db.heap r) db.columns) tgt) tgt (pyInsert idx r)) tgt
      = some (pyInsert idx r (((alookup db.columns tgt).getD []).erase r))
    rw [alookup_aupdate_self, alookup_ensureCol_self, hrfc,
      alookup_map_values db.columns (fun rs => rs.erase r) tgt]
    cases alookup db.columns tgt <;> simp

/-- The two-task store of the seed scenario. -/
def dbAB : Database := (emptyDB.add taskA "todo").add taskB "todo"

/-- C6 (witness): moving task "a" of `dbAB` to index 1 of "todo" succeeds
and produces the reordered column, and an out-of-range insert appends. -/
theorem c6_move_witness :
    (dbAB.move "a" "todo" 1).1 = none ∧
    alookup (dbAB.move "a" "todo" 1).2.columns "todo" = some [1, 0] ∧
    pyInsert 5 9 [1, 0] = [1, 0, 9] := by
  have hwf : WF dbAB := (WF.empty.add (by exact rfl)).add (by exact rfl)
  have h := c6_move dbAB "a" "todo" 1 0 hwf (by decide)
  exact ⟨h.1, h.2.2.2.2.1, h.2.2.2.2.2.2 5 9 [1, 0] (by decide)⟩

/-! ### Shared import-shape lemmas for the snapshot claims -/

theorem importCategories_eq {cats : List (String × Category)}
    {acc : List (String × Category)} (hnd : (cats.map Prod.fst).Nodup)
    (hdisj : ∀ p ∈ cats, p.1 ∉ acc.map Prod.fst) :
    importCategories cats acc = acc ++ cats := by
  induction cats generalizing acc with
  | nil => simp [importCategories]
  | cons p rest ih =>
    obtain ⟨k, cat⟩ := p
    simp only [List.map_cons, List.nodup_cons] at hnd
    have hkm : k ∉ acc.map Prod.fst := hdisj (k, cat) (List.mem_cons_self _ _)
    have hset : aset acc k cat = acc ++ [(k, cat)] :=
      aset_eq_append _ (alookup_eq_none_iff.mpr hkm)
    have hdisj' : ∀ p ∈ rest, p.1 ∉ (aset acc k cat).map Prod.fst := by
      intro p hp hc
      rw [hset] at hc
      simp only [List.map_append, List.map_cons, List.map_nil,
        List.mem_append, List.mem_singleton] at hc
      rcases hc with hc | hc
      · exact hdisj p (List.mem_cons_of_mem _ hp) hc
      · exact hnd.1 (hc ▸ List.mem_map.mpr ⟨p, hp, rfl⟩)
    rw [show importCategories ((k, cat) :: rest) acc
        = importCategories rest (aset acc k cat) from rfl,
      ih hnd.2 hdisj', hset]
    simp

theorem import_tasks_db (db : Database) (data : SnapshotData)
    (ts : List (String × TaskData)) (hdata : data.tasks = some ts)
    (hts : (ts.map Prod.fst).Nodup) :
    (db.import_from_json data).tasks_db = indexList ts 0 := by
  show (importTasks (data.tasks.getD []) [] []).2 = _
  rw [hdata]
  simp only [Option.getD_some]
  rw [importTasks_map [] hts (by intro p hp; simp)]
  rfl

theorem import_heap (db : Database) (data : SnapshotData)
    (ts : List (String × TaskData)) (hdata : data.tasks = some ts) :
    (db.import_from_json data).heap = ts.map fun p => mkTaskFromData p.2 := by
  show (importTasks (data.tasks.getD []) [] []).1 = _
  rw [hdata]
  simp only [Option.getD_some]
  rw [importTasks_heap]
  rfl

theorem import_columns_shape (db : Database) (data : SnapshotData)
    (ts : List (String × TaskData)) (cs : List (String × List String))
    (hdt : data.tasks = some ts) (hdc : data.columns = some cs)
    (hts : (ts.map Prod.fst).Nodup) (hcs : (cs.map Prod.fst).Nodup) :
    (db.import_from_json data).columns
      = cs.map fun p =>
        (p.1, p.2.filterMap fun tid => alookup (indexList ts 0) tid) := by
  show importColumns (importTasks (data.tasks.getD []) [] []).2
    (data.columns.getD []) [] = _
  rw [hdt, hdc]
  simp only [Option.getD_some]
  rw [importColumns_eq hcs (by intro p hp; simp)]
  rw [show (importTasks ts [] []).2 = indexList ts 0 from by
    rw [importTasks_map [] hts (by intro p hp; simp)]
    rfl]
  simp

theorem import_alookup_mk {ts : List (String × TaskData)} {k : String}
    {td : TaskData} (hts : (ts.map Prod.fst).Nodup) (hm : (k, td) ∈ ts) :
    ∃ q, alookup (indexList ts 0) k = some q ∧
      hget (ts.map fun p => mkTaskFromData p.2) q = mkTaskFromData td := by
  obtain ⟨i, hl, hg⟩ := alookup_indexList 0 hts hm
  refine ⟨0 + i, hl, ?_⟩
  have : (ts.map fun p => mkTaskFromData p.2)[i]?
      = some (mkTaskFromData td) := by
    rw [List.getElem?_map, hg]
    rfl
  simp [hget, List.getD, Nat.zero_add, this]

theorem import_heapId {ts : List (String × TaskData)}
    (hid : ∀ p ∈ ts, (p.2).id = p.1) :
    ∀ tid q, alookup (indexList ts 0) tid = some q →
      (hget (ts.map fun p => mkTaskFromData p.2) q).id = tid := by
  intro tid q hl
  obtain ⟨i, td, hq, hg, hmem⟩ := indexList_mem (alookup_mem hl)
  have : (ts.map fun p => mkTaskFromData p.2)[i]?
      = some (mkTaskFromData td) := by
    rw [List.getElem?_map, hg]
    rfl
  rw [hq]
  have hv : hget (ts.map fun p => mkTaskFromData p.2) (0 + i)
      = mkTaskFromData td := by
    simp [hget, List.getD, Nat.zero_add, this]
  rw [hv]
  exact hid (tid, td) hmem

theorem filterMap_lookup_ids {m : List (String × Nat)} {heap : List Task}
    (hpt : ∀ tid q, alookup m tid = some q → (hget heap q).id = tid)
    (tids : List String) :
    ((tids.filterMap fun tid => alookup m tid).map
      fun q => (hget heap q).id)
      = tids.filter fun tid => (alookup m tid).isSome := by
  induction tids with
  | nil => rfl
  | cons tid tl ih =>
    cases hl : alookup m tid with
    | none => simp [List.filterMap_cons, List.filter_cons, hl, ih]
    | some q =>
      simp [List.filterMap_cons, List.filter_cons, hl, ih, hpt tid q hl]

theorem mkTaskFromData_taskToData (t : Task) :
    mkTaskFromData (taskToData t) = t := rfl

/-! ### Claim C8 -/

/-- C8: `import_from_json` replaces all in-memory task/column/category state
(the result does not depend on the prior store except for the dirty flag,
which it never touches); a task record whose `category_id` key is absent is
imported with a `none` category reference; a task id listed in a column with
no corresponding task record is silently skipped while the ids with records
are kept in order; and when the `categories` key is absent the category map
comes out empty.  The key hypotheses reflect that the snapshot fields are
parsed JSON objects (unique keys, record ids equal to their keys). -/
theorem c8_import (db : Database) (ts : List (String × TaskData))
    (cs : List (String × List String))
    (cats : Option (List (String × Category)))
    (hts : (ts.map Prod.fst).Nodup) (hcs : (cs.map Prod.fst).Nodup)
    (hid : ∀ p ∈ ts, (p.2).id = p.1) :
    db.import_from_json ⟨some ts, some cs, cats⟩
      = { emptyDB.import_from_json ⟨some ts, some cs, cats⟩ with
          has_changes := db.has_changes } ∧
    (∀ k td, (k, td) ∈ ts → td.category_id = none →
      taskAt (db.import_from_json ⟨some ts, some cs, cats⟩) k
        = some (mkTaskFromData td) ∧
      (mkTaskFromData td).category_id = none) ∧
    (∀ c tids, (c, tids) ∈ cs →
      colList (db.import_from_json ⟨some ts, some cs, cats⟩) c
        = some (tids.filter fun tid =>
            (alookup (db.import_from_json
              ⟨some ts, some cs, cats⟩).tasks_db tid).isSome)) ∧
    (cats = none →
      (db.import_from_json ⟨some ts, some cs, cats⟩).categories = []) := by
  have htdb := import_tasks_db db ⟨some ts, some cs, cats⟩ ts rfl hts
  have hheap := import_heap db ⟨some ts, some cs, cats⟩ ts rfl
  have hcols := import_columns_shape db ⟨some ts, some cs, cats⟩ ts cs
    rfl rfl hts hcs
  refine ⟨rfl, ?_, ?_, ?_⟩
  · intro k td hm hcat
    obtain ⟨q, hl, hv⟩ := import_alookup_mk hts hm
    constructor
    · unfold taskAt
      rw [htdb, hheap, hl]
      show some (hget (ts.map fun p => mkTaskFromData p.2) q)
        = some (mkTaskFromData td)
      rw [hv]
    · simp [mkTaskFromData, hcat]
  · intro c tids hm
    unfold colList
    rw [hcols, htdb, hheap,
      alookup_map_values cs
        (fun tids => tids.filterMap fun tid => alookup (indexList ts 0) tid) c,
      alookup_of_mem_nodup hcs hm]
    show some ((tids.filterMap fun tid => alookup (indexList ts 0) tid).map
        fun q => (hget (ts.map fun p => mkTaskFromData p.2) q).id)
      = some (tids.filter fun tid =>
          (alookup (indexList ts 0) tid).isSome)
    rw [filterMap_lookup_ids (import_heapId hid) tids]
  · intro hcat
    subst hcat
    rfl

/-- C8 (witness): a concrete snapshot exercising all four behaviors — one
record lacking its category key, one column id without a record, no
categories key. -/
theorem c8_import_witness :
    taskAt (emptyDB.import_from_json
        ⟨some [("x", (⟨"x", "t", none, none⟩ : TaskData))],
          some [("c", ["x", "ghost"])], none⟩) "x"
      = some (⟨"x", "t", none, none⟩ : Task) ∧
    colList (emptyDB.import_from_json
        ⟨some [("x", (⟨"x", "t", none, none⟩ : TaskData))],
          some [("c", ["x", "ghost"])], none⟩) "c" = some ["x"] ∧
    (emptyDB.import_from_json
        ⟨some [("x", (⟨"x", "t", none, none⟩ : TaskData))],
          some [("c", ["x", "ghost"])], none⟩).categories = [] := by
  have h := c8_import emptyDB [("x", (⟨"x", "t", none, none⟩ : TaskData))]
    [("c", ["x", "ghost"])] none (by decide) (by decide) (by decide)
  refine ⟨?_, ?_, h.2.2.2 rfl⟩
  · exact (h.2.1 "x" ⟨"x", "t", none, none⟩ (by decide) rfl).1
  · rw [h.2.2.1 "c" ["x", "ghost"] (by decide)]
    decide

/-! ### Claim C4 -/

/-- A store whose column "c" holds a task object that has no binding in the
task map (the id `"y"` is absent): legal for the data structures, and the
spec's §3 invariant — which only constrains ids present in the task map —
does not rule it out. -/
def dbDangling : Database :=
  { heap := [⟨"y", "t", none, none⟩],
    tasks_db := [],
    columns := [("c", [0])],
    categories := [],
    has_changes := false }

/-- C4 (counterexample): export/import does not reproduce the column
ordering of every store state: a column entry whose id has no task-map
binding is exported (columns are projected to id lists) but silently skipped
on import, so column "c" comes back empty instead of ["y"]. -/
theorem c4_counterexample :
    colList dbDangling "c" = some ["y"] ∧
    colList (emptyDB.import_from_json dbDangling.export_to_json) "c"
      = some [] ∧
    colList (emptyDB.import_from_json dbDangling.export_to_json) "c"
      ≠ colList dbDangling "c" := by
  refine ⟨by decide, by decide, by decide⟩

/-- C4 (amended): for every store state whose task, column and category maps
have unique keys, whose task records carry the id they are bound under, and
whose column entries all refer to tasks present in the task map,
`export_to_json` followed by `import_from_json` on a freshly cleared store
reproduces an equivalent task map, the same column ids with the same ordered
task-id lists, and an equal category map. -/
theorem c4_roundtrip (db : Database)
    (hk : (db.tasks_db.map Prod.fst).Nodup)
    (hc : (db.columns.map Prod.fst).Nodup)
    (hcat : (db.categories.map Prod.fst).Nodup)
    (hidc : ∀ p ∈ db.tasks_db, (hget db.heap p.2).id = p.1)
    (hpres : ∀ q ∈ allColRefs db.columns,
      (alookup db.tasks_db (hget db.heap q).id).isSome) :
    (∀ id, taskAt (emptyDB.import_from_json db.export_to_json) id
      = taskAt db id) ∧
    (emptyDB.import_from_json db.export_to_json).columns.map Prod.fst
      = db.columns.map Prod.fst ∧
    (∀ c, colList (emptyDB.import_from_json db.export_to_json) c
      = colList db c) ∧
    (emptyDB.import_from_json db.export_to_json).categories
      = db.categories := by
  have hts : ((exportTasks db).map Prod.fst).Nodup := by
    unfold exportTasks
    rw [map_fst_map_pair]
    exact hk
  have hcs : ((exportCols db).map Prod.fst).Nodup := by
    unfold exportCols
    rw [map_fst_map_pair]
    exact hc
  have hid : ∀ p ∈ exportTasks db, (p.2).id = p.1 := by
    intro p hp
    obtain ⟨p0, hp0, he⟩ := List.mem_map.mp hp
    subst he
    exact hidc p0 hp0
  have htdb := import_tasks_db emptyDB db.export_to_json (exportTasks db)
    rfl hts
  have hheap := import_heap emptyDB db.export_to_json (exportTasks db) rfl
  have hcols := import_columns_shape emptyDB db.export_to_json
    (exportTasks db) (exportCols db) rfl rfl hts hcs
  have hkeys : (indexList (exportTasks db) 0).map Prod.fst
      = db.tasks_db.map Prod.fst := by
    rw [indexList_map_fst]
    unfold exportTasks
    rw [map_fst_map_pair]
  refine ⟨?_, ?_, ?_, ?_⟩
  · intro id
    cases hl : alookup db.tasks_db id with
    | none =>
      have h1 : alookup (indexList (exportTasks db) 0) id = none := by
        rw [alookup_eq_none_iff, hkeys]
        exact alookup_eq_none_iff.mp hl
      unfold taskAt
      rw [htdb, h1, hl]
      rfl
    | some r =>
      have hmem : (id, taskToData (hget db.heap r)) ∈ exportTasks db :=
        List.mem_map.mpr ⟨(id, r), alookup_mem hl, rfl⟩
      obtain ⟨q, hlq, hv⟩ := import_alookup_mk hts hmem
      unfold taskAt
      rw [htdb, hheap, hlq, hl]
      show some (hget ((exportTasks db).map fun p => mkTaskFromData p.2) q)
        = some (hget db.heap r)
      rw [hv, mkTaskFromData_taskToData]
  · rw [hcols, map_fst_map_pair]
    unfold exportCols
    rw [map_fst_map_pair]
  · intro c
    unfold colList
    have houter : alookup (emptyDB.import_from_json db.export_to_json).columns
        c = ((alookup db.columns c).map fun rs =>
          ((rs.map fun r => (hget db.heap r).id).filterMap fun tid =>
            alookup (indexList (exportTasks db) 0) tid)) := by
      rw [hcols,
        alookup_map_values (exportCols db)
          (fun tids => tids.filterMap fun tid =>
            alookup (indexList (exportTasks db) 0) tid) c]
      unfold exportCols
      rw [alookup_map_values db.columns
        (fun rs => rs.map fun r => (hget db.heap r).id) c]
      cases alookup db.columns c <;> rfl
    rw [houter, hheap]
    cases hlc : alookup db.columns c with
    | none => rfl
    | some rs =>
      show some (((rs.map fun r => (hget db.heap r).id).filterMap
          fun tid => alookup (indexList (exportTasks db) 0) tid).map
          fun q => (hget ((exportTasks db).map
            fun p => mkTaskFromData p.2) q).id)
        = some (rs.map fun r => (hget db.heap r).id)
      rw [filterMap_lookup_ids (import_heapId hid)]
      congr 1
      rw [List.filter_eq_self]
      intro tid htid
      obtain ⟨q, hq, he⟩ := List.mem_map.mp htid
      subst he
      have hall : q ∈ allColRefs db.columns :=
        List.mem_flatMap.mpr ⟨(c, rs), alookup_mem hlc, hq⟩
      have hsome := hpres q hall
      rw [alookup_isSome_iff, hkeys, ← alookup_isSome_iff]
      exact hsome
  · show importCategories db.categories [] = db.categories
    rw [importCategories_eq hcat (by intro p hp; simp)]
    rfl

/-- C4 (witness): the round trip evaluated on the concrete store `dbCat`. -/
theorem c4_roundtrip_witness :
    taskAt (emptyDB.import_from_json dbCat.export_to_json) "a"
      = taskAt dbCat "a" ∧
    colList (emptyDB.import_from_json dbCat.export_to_json) "todo"
      = colList dbCat "todo" ∧
    (emptyDB.import_from_json dbCat.export_to_json).categories
      = dbCat.categories := by
  have h := c4_roundtrip dbCat (by decide) (by decide) (by decide)
    (by decide) (by decide)
  exact ⟨h.1 "a", h.2.2.1 "todo", h.2.2.2⟩

end Kanban
